import Mathlib

/-!
Shallow embedding of the layer-stack editing core of vmodel.py (class
Model1d): the constructor column logic, the addlayer insert/split
algorithm and the perturb operator, over exact rational arithmetic.

Numeric values are modelled as rationals.  The square-root routine
(np.sqrt, used only to fill the derived vpf column) is passed in as an
abstract function sq so that every definition stays executable; no claim
depends on its values.

A Model1d instance is a record of parallel per-layer arrays.  The source
repeats the same masking/append statement once per attribute array; we
model the parameter arrays as a single function from a column-label type
to lists, and perform the common per-column operation once.  The column
labels for the ISOTROPIC variant are vp, vs, rho, qp, qs, etap, etas,
frefp, frefs; for the TRANSVERSE ISOTROPIC variant vpv, vsv, vph, vsh,
vpf plus the common seven.  The thickness array HArr and the cached
DepthArr are separate fields, as in the source.

Python raise sites and numpy IndexError / AttributeError are modelled by
an Except result whose error value carries the state of the object at
the moment the exception escapes (Python mutates attribute by attribute,
so a raise can leave a partially updated object).
-/

/-- Error kinds raised by the modelled methods: numpy or list IndexError,
AttributeError (reading a missing attribute), and the two explicit
ValueError raises in perturb (fraction out of range, datatype not
accepted for the model type). -/
inductive PyErr where
  | indexError : PyErr
  | attributeError : PyErr
  | valueOutOfRange : PyErr
  | valueIncompatible : PyErr
deriving DecidableEq, Repr

/-- np.cumsum on rationals, with a running accumulator. -/
def cumsumFrom (acc : ℚ) : List ℚ → List ℚ
  | [] => []
  | x :: xs => (acc + x) :: cumsumFrom (acc + x) xs

/-- np.cumsum: cumsum [a, b, c] = [a, a+b, a+b+c]. -/
def cumsum (l : List ℚ) : List ℚ := cumsumFrom 0 l

/-- Boolean-mask indexing arr[mask] of numpy. -/
def filt : List Bool → List ℚ → List ℚ
  | true :: bs, x :: xs => x :: filt bs xs
  | false :: bs, _ :: xs => filt bs xs
  | _, _ => []

/-- arr[mask][0] of numpy: none models IndexError on an empty selection. -/
def firstWhere (mask : List Bool) (l : List ℚ) : Option ℚ := (filt mask l).head?

/-- arr[mask][-1] of numpy. -/
def lastWhere (mask : List Bool) (l : List ℚ) : Option ℚ := (filt mask l).getLast?

/-- First index at which a boolean mask is true (np.arange(n)[mask][0]). -/
def idxFirst (mask : List Bool) : Option ℕ := mask.findIdx? (fun b => b)

/-- Last index at which a boolean mask is true (np.arange(n)[mask][-1]). -/
def idxLast (mask : List Bool) : Option ℕ :=
  match idxFirst mask.reverse with
  | some j => some (mask.length - 1 - j)
  | none => none

/-- Integer indexing arr[i] of numpy, with negative indices counting from
the end; none models IndexError. -/
def npGet (l : List ℚ) (i : ℤ) : Option ℚ :=
  if 0 ≤ i then l.get? i.toNat
  else if 0 ≤ i + l.length then l.get? (i + l.length).toNat
  else none

/-- In-place masked multiplicative update arr[mask] = arr[mask] * c. -/
def scaleMasked (mask : List Bool) (c : ℚ) (l : List ℚ) : List ℚ :=
  List.zipWith (fun b x => if b then x * c else x) mask l

/-- Column labels of the ISOTROPIC variant parameter arrays
(VpArr, VsArr, rhoArr, QpArr, QsArr, etapArr, etasArr, frefpArr, frefsArr). -/
inductive IsoCol where
  | vp | vs | rho | qp | qs | etap | etas | frefp | frefs
deriving DecidableEq, Repr, Fintype

/-- Column labels of the TRANSVERSE ISOTROPIC variant parameter arrays
(VpvArr, VsvArr, VphArr, VshArr, VpfArr plus the common seven). -/
inductive TICol where
  | vpv | vsv | vph | vsh | vpf | rho | qp | qs | etap | etas | frefp | frefs
deriving DecidableEq, Repr, Fintype

/-- A Model1d object: thickness array HArr, the parameter arrays indexed
by a column label, and the cached bottom-depth array DepthArr (the source
stores DepthArr as an attribute and recomputes it at the end of each
successful structural edit, so it can be stale in a partially mutated
error state). -/
structure Stack1d (F : Type) where
  HArr : List ℚ
  col : F → List ℚ
  DepthArr : List ℚ

/-- Bottom depth of the stack, self.DepthArr[-1] (0 for an empty stack,
where the source would raise instead; guards that read DepthArr[-1] are
modelled explicitly at each use site). -/
def Stack1d.totalDepth {F : Type} (m : Stack1d F) : ℚ := m.DepthArr.getLastD 0

/-- Replace one parameter column. -/
def Stack1d.updCol {F : Type} [DecidableEq F] (m : Stack1d F) (f : F) (l : List ℚ) :
    Stack1d F :=
  { m with col := fun g => if g = f then l else m.col g }

/-- topArr = self.DepthArr - self.HArr of the source. -/
def Stack1d.topArr {F : Type} (m : Stack1d F) : List ℚ :=
  List.zipWith (fun d h => d - h) m.DepthArr m.HArr

/-- addlayer, append branch (zmin >= self.DepthArr[-1], lines 180-198): every
array gets the new value appended, DepthArr is recomputed. -/
def appendCore {F : Type} (m : Stack1d F) (newH : ℚ) (newv : F → ℚ) : Stack1d F :=
  { HArr := m.HArr ++ [newH]
    col := fun f => m.col f ++ [newv f]
    DepthArr := cumsum (m.HArr ++ [newH]) }

/-- addlayer, prepend branch (zmin <= 0, lines 199-238): layers with bottom
depth <= newH are discarded (each array filtered by the stale DepthArr > H
mask), the first surviving thickness is shortened to its old bottom minus
newH, and the new layer is prepended.  Reading the first surviving bottom
(line 219) raises IndexError when nothing survives, after the arrays have
already been filtered, so the error state carries the filtered columns with
a stale DepthArr. -/
def prependCore {F : Type} (m : Stack1d F) (newH : ℚ) (newv : F → ℚ) :
    Except (PyErr × Stack1d F) (Stack1d F) :=
  let mask := m.DepthArr.map (fun d => decide (newH < d))
  let fH := filt mask m.HArr
  let fcol := fun f => filt mask (m.col f)
  match firstWhere mask m.DepthArr with
  | none => .error (.indexError, { HArr := fH, col := fcol, DepthArr := m.DepthArr })
  | some d0 =>
    let HArr2 := newH :: fH.set 0 (d0 - newH)
    .ok { HArr := HArr2
          col := fun f => newv f :: fcol f
          DepthArr := cumsum HArr2 }

/-- Top or bottom fragment gate and the per-column fragment reads of the
interior branch: colT = col[Depth <= zmin] plus, if the fragment thickness
is nonzero, the straddled value col[Depth > zmin][0]. -/
def segT (mask : List Bool) (gate : Bool) (frag : ℚ) (c : List ℚ) : List ℚ :=
  filt mask c ++ (if gate then [frag] else [])

/-- colB = col[topArr >= zmax] with, if the bottom fragment thickness is
nonzero, the straddled value col[topArr < zmax][-1] prepended. -/
def segB (mask : List Bool) (gate : Bool) (frag : ℚ) (c : List ℚ) : List ℚ :=
  (if gate then [frag] else []) ++ filt mask c

/-- addlayer, interior branch (0 < zmin < self.DepthArr[-1], lines 239-384).
All reads use the pre-call arrays; the object is only written at the end, so
an IndexError in the fragment reads leaves the object unchanged.  The top
fragment thickness is tH = zmin - topArr[Depth > zmin][0], the bottom one
bH = DepthArr[topArr < zmin+newH][-1] - (zmin+newH); a fragment is emitted
only when its thickness differs from 0 (the source tests tH != 0, bH != 0,
so a negative thickness is emitted as well). -/
def interiorCore {F : Type} [DecidableEq F] [Fintype F] (m : Stack1d F)
    (newH : ℚ) (newv : F → ℚ) (zmin : ℚ) : Except (PyErr × Stack1d F) (Stack1d F) :=
  let zmax := zmin + newH
  let top := m.topArr
  let mT := m.DepthArr.map (fun d => decide (d ≤ zmin))
  let mGT := m.DepthArr.map (fun d => decide (zmin < d))
  let mB := top.map (fun t => decide (zmax ≤ t))
  let mLT := top.map (fun t => decide (t < zmax))
  match firstWhere mGT top with
  | none => .error (.indexError, m)
  | some t =>
    let tH := zmin - t
    let tGate := decide (tH ≠ 0)
    if tGate ∧ ¬ ∀ f : F, (firstWhere mGT (m.col f)).isSome then
      .error (.indexError, m)
    else
      match lastWhere mLT m.DepthArr with
      | none => .error (.indexError, m)
      | some d =>
        let bH := d - zmax
        let bGate := decide (bH ≠ 0)
        if bGate ∧ ¬ ∀ f : F, (lastWhere mLT (m.col f)).isSome then
          .error (.indexError, m)
        else
          let HArr2 := segT mT tGate tH m.HArr ++ newH :: segB mB bGate bH m.HArr
          .ok { HArr := HArr2
                col := fun f =>
                  segT mT tGate ((firstWhere mGT (m.col f)).getD 0) (m.col f) ++
                    newv f :: segB mB bGate ((lastWhere mLT (m.col f)).getD 0) (m.col f)
                DepthArr := cumsum HArr2 }

/-- addlayer dispatch as executed on an ISOTROPIC instance: the branch test
zmin >= self.DepthArr[-1] raises IndexError on an empty stack before any
mutation; otherwise append, prepend or interior insertion. -/
def addlayerRaw {F : Type} [DecidableEq F] [Fintype F] (m : Stack1d F)
    (newH : ℚ) (newv : F → ℚ) (zmin : ℚ) : Except (PyErr × Stack1d F) (Stack1d F) :=
  match m.DepthArr.getLast? with
  | none => .error (.indexError, m)
  | some dl =>
    if dl ≤ zmin then .ok (appendCore m newH newv)
    else if zmin ≤ 0 then prependCore m newH newv
    else interiorCore m newH newv zmin

/-- addlayer dispatch as executed on a TRANSVERSE ISOTROPIC instance.  The
append branch (lines 185-190) appends to HArr, VpvArr and VsvArr and then
evaluates np.append(self.VpArr, vph): a TI instance has no VpArr attribute,
so an AttributeError escapes with the object partially mutated (HArr,
VpvArr, VsvArr extended, everything else, including DepthArr, untouched). -/
def addlayerRawTI (m : Stack1d TICol) (newH : ℚ) (newv : TICol → ℚ) (zmin : ℚ) :
    Except (PyErr × Stack1d TICol) (Stack1d TICol) :=
  match m.DepthArr.getLast? with
  | none => .error (.indexError, m)
  | some dl =>
    if dl ≤ zmin then
      .error (.attributeError,
        { HArr := m.HArr ++ [newH]
          col := fun f =>
            if f = .vpv then m.col .vpv ++ [newv .vpv]
            else if f = .vsv then m.col .vsv ++ [newv .vsv]
            else m.col f
          DepthArr := m.DepthArr })
    else if zmin ≤ 0 then prependCore m newH newv
    else interiorCore m newH newv zmin

/-- Brocher-crust default P velocity from vsv (line 175). -/
def brocherVp (vs : ℚ) : ℚ :=
  9409/10000 + (20947/10000)*vs - (8206/10000)*vs^2 + (2683/10000)*vs^3 - (251/10000)*vs^4

/-- Brocher-crust default density from vpv (line 178). -/
def brocherRho (vp : ℚ) : ℚ :=
  (16612/10000)*vp - (4721/10000)*vp^2 + (671/10000)*vp^3 - (43/10000)*vp^4 + (106/1000000)*vp^5

/-- Model1d.addlayer on an ISOTROPIC instance, with the None-default
resolution of lines 175-179 (vpv from the Brocher relation, vph = vpv,
vsh = vsv, rho from Brocher, vpf = sq(vpv^2 - 2 vsv^2)); the isotropic
branches then use only vpv, vsv, rho and the six attenuation values. -/
def Stack1d.addlayerIso (m : Stack1d IsoCol) (H vsv : ℚ)
    (vsh vpv vph vpf rho : Option ℚ)
    (Qp Qs etap etas frefp frefs : ℚ) (zmin : ℚ) :
    Except (PyErr × Stack1d IsoCol) (Stack1d IsoCol) :=
  let vpv := vpv.getD (brocherVp vsv)
  let _vph := vph.getD vpv
  let _vsh := vsh.getD vsv
  let rho := rho.getD (brocherRho vpv)
  let _vpf := vpf
  addlayerRaw m H
    (fun f => match f with
      | .vp => vpv | .vs => vsv | .rho => rho
      | .qp => Qp | .qs => Qs | .etap => etap | .etas => etas
      | .frefp => frefp | .frefs => frefs)
    zmin

/-- Model1d.addlayer on a TRANSVERSE ISOTROPIC instance, with the same
None-default resolution; sq is the abstract square root used by the vpf
default of line 179. -/
def Stack1d.addlayerTI (sq : ℚ → ℚ) (m : Stack1d TICol) (H vsv : ℚ)
    (vsh vpv vph vpf rho : Option ℚ)
    (Qp Qs etap etas frefp frefs : ℚ) (zmin : ℚ) :
    Except (PyErr × Stack1d TICol) (Stack1d TICol) :=
  let vpv := vpv.getD (brocherVp vsv)
  let vph := vph.getD vpv
  let vsh := vsh.getD vsv
  let rho := rho.getD (brocherRho vpv)
  let vpf := vpf.getD (sq (vpv^2 - 2*vsv^2))
  addlayerRawTI m H
    (fun f => match f with
      | .vpv => vpv | .vsv => vsv | .vph => vph | .vsh => vsh | .vpf => vpf
      | .rho => rho
      | .qp => Qp | .qs => Qs | .etap => etap | .etas => etas
      | .frefp => frefp | .frefs => frefs)
    zmin

/-- The bundle of per-layer values read back at a boundary index for the
addlayer call of a perturb branch: every column of the straddled layer is
read at index i (IndexError propagates as none), and the columns in the
scale set are multiplied by c = 1 + dm.  In every branch of the source the
scale set is the single perturbed column, except the vsh top-boundary call
(lines 625-626) which multiplies vph as well. -/
def readArgs {F : Type} [DecidableEq F] [Fintype F] (m : Stack1d F)
    (scaled : F → Bool) (c : ℚ) (i : ℤ) : Option (F → ℚ) :=
  if h : ∀ f : F, (npGet (m.col f) i).isSome then
    some (fun f => (npGet (m.col f) i).get (h f) * (if scaled f then c else 1))
  else none

/-- The top fragment data of perturb (lines 538-543): none when some layer
top equals zmin, otherwise (Ht, indext, z1) with
Ht = topArr[topArr > zmin][0] - zmin, indext = arange(n)[topArr >= zmin][0] - 1
(an integer: -1 wraps in numpy) and z1 = zmin; IndexError when no layer top
exceeds zmin. -/
def topFragInfo {F : Type} (m : Stack1d F) (zmin : ℚ) :
    Except (PyErr × Stack1d F) (Option (ℚ × ℤ × ℚ)) :=
  let top := m.topArr
  let indexT := top.map (fun t => decide (zmin ≤ t))
  if top.any (fun t => decide (t = zmin)) then .ok none
  else
    match firstWhere (top.map (fun t => decide (zmin < t))) top, idxFirst indexT with
    | some t0, some j => .ok (some (t0 - zmin, (j : ℤ) - 1, zmin))
    | _, _ => .error (.indexError, m)

/-- The bottom fragment data of perturb (lines 544-554): none when some
layer bottom equals zmax; (zmax, 0, 0) when zmax is above the first bottom;
otherwise (Hb, indexb, z2) with Hb = zmax - bottomArr[bottomArr < zmax][-1],
indexb = arange(n)[bottomArr <= zmax][-1] + 1 and z2 the last bottom below
zmax. -/
def botFragInfo {F : Type} (m : Stack1d F) (zmax : ℚ) :
    Except (PyErr × Stack1d F) (Option (ℚ × ℕ × ℚ)) :=
  let bottom := m.DepthArr
  let indexB := bottom.map (fun b => decide (b ≤ zmax))
  if bottom.any (fun b => decide (b = zmax)) then .ok none
  else
    match bottom.head? with
    | none => .error (.indexError, m)
    | some b0 =>
      if zmax < b0 then .ok (some (zmax, 0, 0))
      else
        match lastWhere (bottom.map (fun b => decide (b < zmax))) bottom,
            idxLast indexB with
        | some b1, some j => .ok (some (zmax - b1, j + 1, b1))
        | _, _ => .error (.indexError, m)

/-- The in-place masked multiply that opens every datatype branch of
perturb (for example line 560, self.VsArr[index] = self.VsArr[index]*(1.+dm),
with index = indext*indexb): the named column is scaled by 1 + dm on the
layers whose top is at least zmin and whose bottom is at most zmax. -/
def scaledState {F : Type} [DecidableEq F] (m : Stack1d F) (f : F)
    (dm zmin zmax : ℚ) : Stack1d F :=
  m.updCol f (scaleMasked (List.zipWith and
    (m.topArr.map (fun t => decide (zmin ≤ t)))
    (m.DepthArr.map (fun b => decide (b ≤ zmax)))) (1 + dm) (m.col f))

/-- The bottom-boundary call of a perturb datatype branch: when Hb is
nonzero, read every column at indexb (scale set scaledB applied to the
straddled values) and call addlayer with thickness Hb at z2. -/
def bottomStep {F : Type} [DecidableEq F] [Fintype F]
    (addl : Stack1d F → ℚ → (F → ℚ) → ℚ → Except (PyErr × Stack1d F) (Stack1d F))
    (scaledB : F → Bool) (dm : ℚ) (m1 : Stack1d F)
    (binfo : Option (ℚ × ℕ × ℚ)) : Except (PyErr × Stack1d F) (Stack1d F) :=
  match binfo with
  | some (Hb, indexb, z2) =>
    if Hb ≠ 0 then
      match readArgs m1 scaledB (1 + dm) (indexb : ℤ) with
      | none => .error (.indexError, m1)
      | some args => addl m1 Hb args z2
    else .ok m1
  | none => .ok m1

/-- The top-boundary call of a perturb datatype branch: when Ht is nonzero,
read every column of the current state at indext (an integer: -1 wraps in
numpy) and call addlayer with thickness Ht at z1. -/
def topStep {F : Type} [DecidableEq F] [Fintype F]
    (addl : Stack1d F → ℚ → (F → ℚ) → ℚ → Except (PyErr × Stack1d F) (Stack1d F))
    (scaledT : F → Bool) (dm : ℚ) (m2 : Stack1d F)
    (tinfo : Option (ℚ × ℤ × ℚ)) : Except (PyErr × Stack1d F) (Stack1d F) :=
  match tinfo with
  | some (Ht, indext, z1) =>
    if Ht ≠ 0 then
      match readArgs m2 scaledT (1 + dm) indext with
      | none => .error (.indexError, m2)
      | some args => addl m2 Ht args z1
    else .ok m2
  | none => .ok m2

/-- The datatype branch body of perturb: multiply the named column in place
over the fully-inside mask, then the bottom-boundary addlayer call, then
the top-boundary addlayer call on its result. -/
def runBranch {F : Type} [DecidableEq F] [Fintype F]
    (addl : Stack1d F → ℚ → (F → ℚ) → ℚ → Except (PyErr × Stack1d F) (Stack1d F))
    (scaledB scaledT : F → F → Bool)
    (m : Stack1d F) (dm zmin zmax : ℚ) (f : F)
    (tinfo : Option (ℚ × ℤ × ℚ)) (binfo : Option (ℚ × ℕ × ℚ)) :
    Except (PyErr × Stack1d F) (Stack1d F) :=
  match bottomStep addl (scaledB f) dm (scaledState m f dm zmin zmax) binfo with
  | .error e => .error e
  | .ok m2 => topStep addl (scaledT f) dm m2 tinfo

/-- Model1d.perturb (lines 518-798), generic over the variant.  Parameters:
addl is the addlayer method of the variant (called with every parameter
passed explicitly, so the None defaults never fire); reject is the
datatype validation of lines 528-532; parse maps a recognised datatype
string to its column, none meaning no branch runs; scaledB and scaledT
give the scale set used when reading the straddled layer for the bottom
and top boundary calls.  Steps, in source order: validate dm, validate
datatype, compute the top and bottom fragment data, then run the datatype
branch. -/
def perturbCore {F : Type} [DecidableEq F] [Fintype F]
    (addl : Stack1d F → ℚ → (F → ℚ) → ℚ → Except (PyErr × Stack1d F) (Stack1d F))
    (reject : String → Bool) (parse : String → Option F)
    (scaledB scaledT : F → F → Bool)
    (m : Stack1d F) (dm zmin zmax : ℚ) (datatype : String) :
    Except (PyErr × Stack1d F) (Stack1d F) :=
  if 1 < dm ∨ dm < -1 then .error (.valueOutOfRange, m)
  else if reject datatype then .error (.valueIncompatible, m)
  else
    match topFragInfo m zmin with
    | .error e => .error e
    | .ok tinfo =>
      match botFragInfo m zmax with
      | .error e => .error e
      | .ok binfo =>
        match parse datatype with
        | none => .ok m
        | some f => runBranch addl scaledB scaledT m dm zmin zmax f tinfo binfo

/-- Datatype validation on an ISOTROPIC instance: the five TI names are
rejected (lines 530-532); vs and vp pass the line 528 check. -/
def rejectIso (datatype : String) : Bool :=
  datatype = "vsv" ∨ datatype = "vpv" ∨ datatype = "vsh" ∨ datatype = "vph" ∨
    datatype = "vpf"

/-- Datatype validation on a TRANSVERSE ISOTROPIC instance: vs and vp are
rejected (lines 528-529). -/
def rejectTI (datatype : String) : Bool :=
  datatype = "vs" ∨ datatype = "vp"

/-- The datatype branches that run on an ISOTROPIC instance. -/
def parseIso : String → Option IsoCol
  | "vp" => some .vp
  | "vs" => some .vs
  | "rho" => some .rho
  | "qp" => some .qp
  | "qs" => some .qs
  | "etap" => some .etap
  | "etas" => some .etas
  | "frefp" => some .frefp
  | "frefs" => some .frefs
  | _ => none

/-- The datatype branches that run on a TRANSVERSE ISOTROPIC instance. -/
def parseTI : String → Option TICol
  | "vpv" => some .vpv
  | "vph" => some .vph
  | "vsv" => some .vsv
  | "vsh" => some .vsh
  | "vpf" => some .vpf
  | "rho" => some .rho
  | "qp" => some .qp
  | "qs" => some .qs
  | "etap" => some .etap
  | "etas" => some .etas
  | "frefp" => some .frefp
  | "frefs" => some .frefs
  | _ => none

/-- Scale set of the top-boundary addlayer call on a TI instance: the named
column, plus vph when the named column is vsh (lines 625-626: the vsh
branch passes vph=self.VphArr[indext]*(1.+dm) in its top-boundary call). -/
def scaledTopTI (f g : TICol) : Bool := g = f ∨ (f = .vsh ∧ g = .vph)

/-- Model1d.perturb on an ISOTROPIC instance. -/
def Stack1d.perturbIso (m : Stack1d IsoCol) (dm zmin zmax : ℚ) (datatype : String) :
    Except (PyErr × Stack1d IsoCol) (Stack1d IsoCol) :=
  perturbCore (fun s h v z => addlayerRaw s h v z) rejectIso parseIso
    (fun f g => g = f) (fun f g => g = f) m dm zmin zmax datatype

/-- Model1d.perturb on a TRANSVERSE ISOTROPIC instance. -/
def Stack1d.perturbTI (m : Stack1d TICol) (dm zmin zmax : ℚ) (datatype : String) :
    Except (PyErr × Stack1d TICol) (Stack1d TICol) :=
  perturbCore (fun s h v z => addlayerRawTI s h v z) rejectTI parseTI
    (fun f g => g = f) scaledTopTI m dm zmin zmax datatype

/-- Model1d.__init__ with modelindex=2 (TRANSVERSE ISOTROPIC, lines 50-70):
VsvArr and VshArr are both set to the supplied VsArr, VpvArr and VphArr to
the supplied VpArr, and VpfArr to sqrt(VpArr^2 - 2 VsArr^2) elementwise
unless either input is empty or the sizes differ, in which case it is
empty; DepthArr = np.cumsum(HArr). -/
def initTI (sq : ℚ → ℚ) (HArr VsArr VpArr rhoArr QpArr QsArr etapArr etasArr
    frefpArr frefsArr : List ℚ) : Stack1d TICol :=
  { HArr := HArr
    col := fun f => match f with
      | .vsv => VsArr
      | .vpv => VpArr
      | .vsh => VsArr
      | .vph => VpArr
      | .vpf =>
        if VsArr.length = 0 ∨ VpArr.length = 0 ∨ VsArr.length ≠ VpArr.length then []
        else List.zipWith (fun p s => sq (p^2 - 2*s^2)) VpArr VsArr
      | .rho => rhoArr
      | .qp => QpArr
      | .qs => QsArr
      | .etap => etapArr
      | .etas => etasArr
      | .frefp => frefpArr
      | .frefs => frefsArr
    DepthArr := cumsum HArr }

/-- Model1d.getisomodel on a TRANSVERSE ISOTROPIC instance (lines 101-124):
VsvArr = VshArr = VsArr, VpvArr = VphArr = VpArr, VpfArr =
sqrt(VpArr^2 - 2 VsArr^2) elementwise (no size guard here), the four
eta/fref columns are constant arrays of length HArr.size. -/
def getisomodelTI (sq : ℚ → ℚ) (HArr VpArr VsArr rhoArr QpArr QsArr : List ℚ)
    (etap etas frefp fres : ℚ) : Stack1d TICol :=
  { HArr := HArr
    col := fun f => match f with
      | .vsv => VsArr
      | .vpv => VpArr
      | .vsh => VsArr
      | .vph => VpArr
      | .vpf => List.zipWith (fun p s => sq (p^2 - 2*s^2)) VpArr VsArr
      | .rho => rhoArr
      | .qp => QpArr
      | .qs => QsArr
      | .etap => List.replicate HArr.length etap
      | .etas => List.replicate HArr.length etas
      | .frefp => List.replicate HArr.length frefp
      | .frefs => List.replicate HArr.length fres
    DepthArr := cumsum HArr }

/-- The state of the object when a method call returns: the result on
success, the partially (possibly un-) mutated object when an exception
escapes. -/
def outState {F : Type} : Except (PyErr × Stack1d F) (Stack1d F) → Stack1d F
  | .ok s => s
  | .error (_, s) => s

/-- HArr of a successful result. -/
def resHArr {F : Type} : Except (PyErr × Stack1d F) (Stack1d F) → Option (List ℚ)
  | .ok s => some s.HArr
  | .error _ => none

/-- One parameter column of a successful result. -/
def resCol {F : Type} (f : F) : Except (PyErr × Stack1d F) (Stack1d F) → Option (List ℚ)
  | .ok s => some (s.col f)
  | .error _ => none

/-- DepthArr of a successful result. -/
def resDepth {F : Type} : Except (PyErr × Stack1d F) (Stack1d F) → Option (List ℚ)
  | .ok s => some s.DepthArr
  | .error _ => none

/-- The error kind, if the call raised. -/
def errKind {F : Type} : Except (PyErr × Stack1d F) (Stack1d F) → Option PyErr
  | .ok _ => none
  | .error (e, _) => some e

/-- The layer-stack invariants of the spec: every parameter column has the
same length as HArr, every thickness is positive, and the cached DepthArr
is the cumulative sum of HArr. -/
def StackInv {F : Type} (m : Stack1d F) : Prop :=
  (∀ f : F, (m.col f).length = m.HArr.length) ∧
    (∀ h ∈ m.HArr, 0 < h) ∧ m.DepthArr = cumsum m.HArr

/-- Top depth of layer i. -/
def topOf {F : Type} (m : Stack1d F) (i : ℕ) : ℚ :=
  m.DepthArr.getD i 0 - m.HArr.getD i 0

/-- Bottom depth of layer i. -/
def depthOf {F : Type} (m : Stack1d F) (i : ℕ) : ℚ := m.DepthArr.getD i 0

/-- Layer i lies fully inside the half-open depth range from zmin to zmax:
its top is at or below zmin and its bottom at or above zmax.  This is the
conjunction indexT and indexB of the source. -/
def fullyInside {F : Type} (m : Stack1d F) (zmin zmax : ℚ) (i : ℕ) : Prop :=
  i < m.HArr.length ∧ zmin ≤ topOf m i ∧ depthOf m i ≤ zmax

/-- Executable test that a list is strictly increasing. -/
def strictIncrB : List ℚ → Bool
  | a :: b :: rest => decide (a < b) && strictIncrB (b :: rest)
  | _ => true

/-- A single-layer isotropic example model: one layer of thickness 10 with
vp=5, vs=3, rho=2, Qp=310, Qs=150, etap=1/10, etas=1/5, frefp=1, frefs=3/2. -/
def isoM0 : Stack1d IsoCol :=
  { HArr := [10]
    col := fun f => match f with
      | .vp => [5] | .vs => [3] | .rho => [2] | .qp => [310] | .qs => [150]
      | .etap => [1/10] | .etas => [1/5] | .frefp => [1] | .frefs => [3/2]
    DepthArr := cumsum [10] }

/-- A three-layer isotropic example model. -/
def isoM3 : Stack1d IsoCol :=
  { HArr := [2, 4, 4]
    col := fun f => match f with
      | .vp => [5, 6, 7] | .vs => [3, 4, 5] | .rho => [2, 2, 2]
      | .qp => [310, 310, 310] | .qs => [150, 150, 150]
      | .etap => [0, 0, 0] | .etas => [0, 0, 0]
      | .frefp => [1, 1, 1] | .frefs => [1, 1, 1]
    DepthArr := cumsum [2, 4, 4] }

/-- A single-layer transverse-isotropic example model of thickness 8. -/
def tiM1 : Stack1d TICol :=
  { HArr := [8]
    col := fun f => match f with
      | .vpv => [6] | .vsv => [3] | .vph => [6] | .vsh => [3] | .vpf => [2]
      | .rho => [5/2] | .qp => [300] | .qs => [140]
      | .etap => [0] | .etas => [0] | .frefp => [1] | .frefs => [1]
    DepthArr := cumsum [8] }

/-- A single-layer transverse-isotropic example model of thickness 12. -/
def tiM2 : Stack1d TICol :=
  { HArr := [12]
    col := fun f => match f with
      | .vpv => [7] | .vsv => [4] | .vph => [7] | .vsh => [4] | .vpf => [3]
      | .rho => [3] | .qp => [320] | .qs => [160]
      | .etap => [0] | .etas => [0] | .frefp => [1] | .frefs => [1]
    DepthArr := cumsum [12] }

/-- A two-layer transverse-isotropic example model (layers of depth ranges
0 to 4 and 4 to 10). -/
def tiM3 : Stack1d TICol :=
  { HArr := [4, 6]
    col := fun f => match f with
      | .vpv => [8, 9] | .vsv => [4, 5] | .vph => [8, 9] | .vsh => [4, 5]
      | .vpf => [1, 1] | .rho => [2, 3] | .qp => [310, 320] | .qs => [150, 160]
      | .etap => [0, 0] | .etas => [0, 0] | .frefp => [1, 1] | .frefs => [1, 1]
    DepthArr := cumsum [4, 6] }

/-- The C2 scenario: insert a layer of thickness 2 with vp=7, vs=4, rho=3,
Qp=200, Qs=100, etap=etas=0, frefp=frefs=1 at zmin=5 into isoM0. -/
def c2res : Except (PyErr × Stack1d IsoCol) (Stack1d IsoCol) :=
  isoM0.addlayerIso 2 4 none (some 7) none none (some 3) 200 100 0 0 1 1 5

/-- The C4 scenario: perturb vsh by 1/10 over depths 2 to 10 on tiM3; zmin=2
falls strictly inside the first layer, zmax=10 is the model bottom. -/
def c4res : Except (PyErr × Stack1d TICol) (Stack1d TICol) :=
  tiM3.perturbTI (1/10) 2 10 "vsh"

/-- Number of leading entries of a list that are at most z; on a strictly
increasing list this is the number of entries at most z. -/
def countLe (z : ℚ) (d : List ℚ) : ℕ :=
  (d.takeWhile (fun x => decide (x ≤ z))).length

/-- Number of leading entries of a list that are less than z. -/
def countLt (z : ℚ) (d : List ℚ) : ℕ :=
  (d.takeWhile (fun x => decide (x < z))).length

/-- The normal form of a successful interior insertion (proved equal to
interiorCore under the stack invariants): writing jT for the number of
layers with bottom at most zmin and kB for the number of layers with top
below zmax = zmin + newH, the new stack is the first jT layers, a fragment
of the layer straddling zmin (when zmin is not on a boundary), the new
layer, a fragment of the layer straddling zmax (when zmax is not on a
boundary), and the layers from kB on. -/
def interiorResult {F : Type} (m : Stack1d F) (newH : ℚ) (newv : F → ℚ)
    (zmin : ℚ) : Stack1d F :=
  let zmax := zmin + newH
  let jT := countLe zmin m.DepthArr
  let kB := countLt zmax m.topArr
  let tH := zmin - m.topArr.getD jT 0
  let bH := m.DepthArr.getD (kB - 1) 0 - zmax
  let HArr2 := m.HArr.take jT ++ ((if tH ≠ 0 then [tH] else [])
      ++ newH :: ((if bH ≠ 0 then [bH] else []) ++ m.HArr.drop kB))
  { HArr := HArr2
    col := fun f => (m.col f).take jT
      ++ ((if tH ≠ 0 then [(m.col f).getD jT 0] else [])
        ++ newv f :: ((if bH ≠ 0 then [(m.col f).getD (kB-1) 0] else [])
          ++ (m.col f).drop kB))
    DepthArr := cumsum HArr2 }

/-- The layer-stack well-formedness stated by the claims: all parameter
columns have the same length as the thickness array, every thickness is
positive, the depth array is strictly increasing, consecutive depths
differ by the corresponding thickness, and the first depth is the first
thickness. -/
def GoodStack {F : Type} (m : Stack1d F) : Prop :=
  (∀ f : F, (m.col f).length = m.HArr.length) ∧
  (∀ h ∈ m.HArr, 0 < h) ∧
  m.DepthArr.Pairwise (fun a b => a < b) ∧
  (∀ i, i + 1 < m.DepthArr.length →
    m.DepthArr.getD (i+1) 0 - m.DepthArr.getD i 0 = m.HArr.getD (i+1) 0) ∧
  (0 < m.DepthArr.length → m.DepthArr.getD 0 0 = m.HArr.getD 0 0)

/-- C2: inserting a layer of thickness 2 at top depth 5 into a single
isotropic layer of thickness 10 yields exactly three layers, 0 to 5 with
the original parameters, 5 to 7 with the new parameters, 7 to 10 with the
original parameters, and the total depth is still 10. -/
theorem c2_split_correct :
    resHArr c2res = some [5, 2, 3] ∧
    resDepth c2res = some [5, 7, 10] ∧
    resCol IsoCol.vp c2res = some [5, 7, 5] ∧
    resCol IsoCol.vs c2res = some [3, 4, 3] ∧
    resCol IsoCol.rho c2res = some [2, 3, 2] ∧
    resCol IsoCol.qp c2res = some [310, 200, 310] ∧
    resCol IsoCol.qs c2res = some [150, 100, 150] ∧
    resCol IsoCol.etap c2res = some [1/10, 0, 1/10] ∧
    resCol IsoCol.etas c2res = some [1/5, 0, 1/5] ∧
    resCol IsoCol.frefp c2res = some [1, 1, 1] ∧
    resCol IsoCol.frefs c2res = some [3/2, 1, 3/2] := of_decide_eq_true (by with_unfolding_all rfl)

/-- C4: at the failing input (perturb vsh by 1/10 over depths 2 to 10 on a
two-layer TI model with vph values 8 and 9), the top-boundary fragment
layer covering depths 2 to 4 carries vph = 8*(11/10) = 44/5 instead of the
straddled layer's original vph = 8: the vsh top-boundary call also
perturbs vph, while every other column of the fragment is passed through
unperturbed and the fully-inside layer keeps all other columns. -/
theorem c4_vsh_top_fragment_perturbs_vph :
    resHArr c4res = some [2, 2, 6] ∧
    resCol TICol.vsh c4res = some [4, 22/5, 11/2] ∧
    resCol TICol.vph c4res = some [8, 44/5, 9] ∧
    (44/5 : ℚ) ≠ 8 ∧
    resCol TICol.vpv c4res = some [8, 8, 9] ∧
    resCol TICol.vsv c4res = some [4, 4, 5] ∧
    resCol TICol.vpf c4res = some [1, 1, 1] ∧
    resCol TICol.rho c4res = some [2, 2, 3] := of_decide_eq_true (by with_unfolding_all rfl)

/-- C7: failures are not atomic.  Appending to a transverse-isotropic model
(addlayer with zmin past the bottom) raises AttributeError with the model
already partially mutated: HArr, VpvArr and VsvArr are extended while rho
and the other columns are not, so the prior state is not restored.  The
perturb fraction check, in contrast, does fire before any mutation:
perturb with fraction 3/2 fails with the out-of-range ValueError and every
column unchanged. -/
theorem c7_failed_addlayer_mutates :
    errKind (Stack1d.addlayerTI (fun _ => 0) tiM1 2 4 (some 4) (some 7) (some 7)
        (some 1) (some 3) 200 100 0 0 1 1 9999) = some PyErr.attributeError ∧
    (outState (Stack1d.addlayerTI (fun _ => 0) tiM1 2 4 (some 4) (some 7) (some 7)
        (some 1) (some 3) 200 100 0 0 1 1 9999)).HArr = [8, 2] ∧
    tiM1.HArr = [8] ∧
    (outState (Stack1d.addlayerTI (fun _ => 0) tiM1 2 4 (some 4) (some 7) (some 7)
        (some 1) (some 3) 200 100 0 0 1 1 9999)).col TICol.vpv = [6, 7] ∧
    (outState (Stack1d.addlayerTI (fun _ => 0) tiM1 2 4 (some 4) (some 7) (some 7)
        (some 1) (some 3) 200 100 0 0 1 1 9999)).col TICol.rho = [5/2] ∧
    errKind (isoM0.perturbIso (3/2) 0 10 "vs") = some PyErr.valueOutOfRange ∧
    (outState (isoM0.perturbIso (3/2) 0 10 "vs")).HArr = isoM0.HArr ∧
    (∀ f : IsoCol, (outState (isoM0.perturbIso (3/2) 0 10 "vs")).col f = isoM0.col f) := of_decide_eq_true (by with_unfolding_all rfl)

/-- C3 counterexample: on a transverse-isotropic model, insertion with
zmin at or past the bottom does not append a layer at all; it raises
AttributeError (the append branch reads the missing isotropic attributes
VpArr and VsArr), leaving rho (among others) unextended. -/
theorem c3_ti_append_raises :
    errKind (Stack1d.addlayerTI (fun _ => 0) tiM2 3 5 (some 5) (some 9) (some 9)
        (some 2) (some 3) 320 160 0 0 1 1 20) = some PyErr.attributeError ∧
    (outState (Stack1d.addlayerTI (fun _ => 0) tiM2 3 5 (some 5) (some 9) (some 9)
        (some 2) (some 3) 320 160 0 0 1 1 20)).col TICol.rho = [3] := of_decide_eq_true (by with_unfolding_all rfl)

/-- C9 counterexample: addlayer with thickness H = 0 does not fail; the
append succeeds and produces a zero-thickness layer. -/
theorem c9_zero_thickness_accepted :
    errKind (isoM0.addlayerIso 0 4 none (some 7) none none (some 3) 200 100 0 0 1 1 9999)
      = none ∧
    resHArr (isoM0.addlayerIso 0 4 none (some 7) none none (some 3) 200 100 0 0 1 1 9999)
      = some [10, 0] := of_decide_eq_true (by with_unfolding_all rfl)

/-- C8 counterexample: a datatype name that is not a legal parameter of
either variant is not rejected: perturb with datatype zzz returns without
error and changes nothing. -/
theorem c8_unknown_datatype_not_rejected :
    errKind (isoM0.perturbIso (1/10) 0 10 "zzz") = none ∧
    resHArr (isoM0.perturbIso (1/10) 0 10 "zzz") = some isoM0.HArr ∧
    (∀ f : IsoCol, resCol f (isoM0.perturbIso (1/10) 0 10 "zzz") = some (isoM0.col f)) := of_decide_eq_true (by with_unfolding_all rfl)

/-- C6 counterexample: perturb of vs by 1/10 with zmin = -2 on a single
isotropic layer of thickness 10 (which lies fully inside the range -2 to
10).  The top-boundary logic indexes the stack at -1 (numpy wraps to the
last layer) and prepends a fragment whose vs is perturbed twice
(3*(11/10)*(11/10) = 363/100), and the fully-inside layer does not survive
with its column values merely multiplied once: no layer of thickness 10
remains. -/
theorem c6_negative_zmin_counterexample :
    resHArr (isoM0.perturbIso (1/10) (-2) 10 "vs") = some [2, 8] ∧
    resCol IsoCol.vs (isoM0.perturbIso (1/10) (-2) 10 "vs") = some [363/100, 33/10] ∧
    resCol IsoCol.vp (isoM0.perturbIso (1/10) (-2) 10 "vs") = some [5, 5] ∧
    (∀ h ∈ (resHArr (isoM0.perturbIso (1/10) (-2) 10 "vs")).getD [], h ≠ 10) := of_decide_eq_true (by with_unfolding_all rfl)

/-- C5 counterexample: the total depth after insertion is not
max(totalDepth_before, zmin + thickness) in either of the two cases the
claim singles out.  Appending with zmin = 9999 to a stack of depth 10
gives total depth 12, not max(10, 10001); an interior insertion at zmin=5
of thickness 20 into the same stack gives DepthArr [5, 25, 10], whose last
entry 10 is not max(10, 25), and which is not even monotonic. -/
theorem c5_total_depth_counterexample :
    resDepth (isoM0.addlayerIso 2 4 none (some 7) none none (some 3) 200 100 0 0 1 1 9999)
      = some [10, 12] ∧
    (12 : ℚ) ≠ max 10 (9999 + 2) ∧
    resDepth (isoM0.addlayerIso 20 4 none (some 7) none none (some 3) 200 100 0 0 1 1 5)
      = some [5, 25, 10] ∧
    (10 : ℚ) ≠ max 10 (5 + 20) := of_decide_eq_true (by with_unfolding_all rfl)

/-- C1 counterexample: three operations that violate the invariants.  A
transverse-isotropic append leaves columns of unequal length (HArr grows
to 2 entries, rho keeps 1); an isotropic append with H = 0 succeeds and
leaves a non-positive thickness; an interior insertion whose range
overshoots the bottom (zmin=5, H=20 into a depth-10 stack) succeeds and
leaves DepthArr [5, 25, 10], which is not strictly increasing. -/
theorem c1_invariant_counterexample :
    ((outState (Stack1d.addlayerTI (fun _ => 0) tiM1 2 4 (some 4) (some 7) (some 7)
        (some 1) (some 3) 200 100 0 0 1 1 9999)).HArr.length = 2 ∧
      ((outState (Stack1d.addlayerTI (fun _ => 0) tiM1 2 4 (some 4) (some 7) (some 7)
        (some 1) (some 3) 200 100 0 0 1 1 9999)).col TICol.rho).length = 1) ∧
    (resHArr (isoM0.addlayerIso 0 4 none (some 7) none none (some 3) 200 100 0 0 1 1 9999)
        = some [10, 0] ∧
      ¬ ∀ h ∈ ([10, 0] : List ℚ), 0 < h) ∧
    (resDepth (isoM0.addlayerIso 20 4 none (some 7) none none (some 3) 200 100 0 0 1 1 5)
        = some [5, 25, 10] ∧
      strictIncrB [5, 25, 10] = false) := of_decide_eq_true (by with_unfolding_all rfl)

/-- C10: a transverse-isotropic model built through either column-wise
constructor has its horizontal velocity columns identical to the supplied
vertical ones (VshArr = VsArr, VphArr = VpArr), and VpfArr =
sq(VpArr^2 - 2 VsArr^2) elementwise (for the init constructor this needs
the two inputs nonempty and of equal size, otherwise VpfArr is left
empty); distinct horizontal and vertical velocities cannot be established
at construction. -/
theorem c10_constructor_ties_horizontal_to_vertical (sq : ℚ → ℚ)
    (HArr VsArr VpArr rhoArr QpArr QsArr etapArr etasArr frefpArr frefsArr : List ℚ)
    (etap etas frefp fres : ℚ)
    (hlen : VsArr.length = VpArr.length) (hne : VsArr.length ≠ 0) :
    (initTI sq HArr VsArr VpArr rhoArr QpArr QsArr etapArr etasArr frefpArr
        frefsArr).col TICol.vsh = VsArr ∧
    (initTI sq HArr VsArr VpArr rhoArr QpArr QsArr etapArr etasArr frefpArr
        frefsArr).col TICol.vph = VpArr ∧
    (initTI sq HArr VsArr VpArr rhoArr QpArr QsArr etapArr etasArr frefpArr
        frefsArr).col TICol.vpf
      = List.zipWith (fun p s => sq (p^2 - 2*s^2)) VpArr VsArr ∧
    (getisomodelTI sq HArr VpArr VsArr rhoArr QpArr QsArr etap etas frefp
        fres).col TICol.vsh = VsArr ∧
    (getisomodelTI sq HArr VpArr VsArr rhoArr QpArr QsArr etap etas frefp
        fres).col TICol.vph = VpArr ∧
    (getisomodelTI sq HArr VpArr VsArr rhoArr QpArr QsArr etap etas frefp
        fres).col TICol.vpf
      = List.zipWith (fun p s => sq (p^2 - 2*s^2)) VpArr VsArr := by
  refine ⟨rfl, rfl, ?_, rfl, rfl, rfl⟩
  show (if VsArr.length = 0 ∨ VpArr.length = 0 ∨ VsArr.length ≠ VpArr.length
      then [] else List.zipWith (fun p s => sq (p^2 - 2*s^2)) VpArr VsArr) = _
  rw [if_neg]
  push_neg
  exact ⟨hne, by omega, hlen⟩

/-- Witness for C10 at concrete inputs. -/
theorem c10_constructor_witness :
    ([(3 : ℚ)].length = [(5 : ℚ)].length ∧ ([(3 : ℚ)] : List ℚ).length ≠ 0) ∧
    ((initTI (fun x => x) [10] [3] [5] [2] [310] [150] [0] [0] [1] [1]).col
        TICol.vsh = [3] ∧
      (initTI (fun x => x) [10] [3] [5] [2] [310] [150] [0] [0] [1] [1]).col
        TICol.vph = [5] ∧
      (initTI (fun x => x) [10] [3] [5] [2] [310] [150] [0] [0] [1] [1]).col
        TICol.vpf = List.zipWith (fun p s => (fun x => x) (p^2 - 2*s^2)) [5] [3] ∧
      (getisomodelTI (fun x => x) [10] [5] [3] [2] [310] [150] 0 0 1 1).col
        TICol.vsh = [3] ∧
      (getisomodelTI (fun x => x) [10] [5] [3] [2] [310] [150] 0 0 1 1).col
        TICol.vph = [5] ∧
      (getisomodelTI (fun x => x) [10] [5] [3] [2] [310] [150] 0 0 1 1).col
        TICol.vpf = List.zipWith (fun p s => (fun x => x) (p^2 - 2*s^2)) [5] [3]) :=
  ⟨⟨rfl, by decide⟩,
    c10_constructor_ties_horizontal_to_vertical (fun x => x) [10] [3] [5] [2] [310]
      [150] [0] [0] [1] [1] 0 0 1 1 rfl (by decide)⟩

/-- On a nonempty DepthArr, self.DepthArr[-1] is totalDepth. -/
theorem getLast?_eq_totalDepth {F : Type} (m : Stack1d F) (h : m.DepthArr ≠ []) :
    m.DepthArr.getLast? = some m.totalDepth := by
  unfold Stack1d.totalDepth
  rw [List.getLastD_eq_getLast?]
  cases hD : m.DepthArr.getLast? with
  | none => exact absurd (List.getLast?_eq_none_iff.mp hD) h
  | some x => rfl

/-- The append branch runs and returns the appended stack whenever DepthArr
is nonempty and zmin is at least the bottom depth (isotropic dispatch). -/
theorem addlayerRaw_append {F : Type} [DecidableEq F] [Fintype F] (m : Stack1d F)
    (newH : ℚ) (newv : F → ℚ) (zmin : ℚ) (hne : m.DepthArr ≠ [])
    (hz : m.totalDepth ≤ zmin) :
    addlayerRaw m newH newv zmin = .ok (appendCore m newH newv) := by
  unfold addlayerRaw
  rw [getLast?_eq_totalDepth m hne]
  simp only [if_pos hz]

/-- C3 amended: on a NONEMPTY ISOTROPIC model, insertion with zmin at or
past totalDepth appends the new layer strictly last, appending the given
value to every parameter column and touching no existing layer (each column
is its old value with one entry appended); on a transverse-isotropic model
the same call instead raises (see the counterexample). -/
theorem c3_iso_append_appends_last (m : Stack1d IsoCol)
    (H vsv vsh vpv vph vpf rho Qp Qs etap etas frefp frefs zmin : ℚ)
    (hne : m.DepthArr ≠ []) (hz : m.totalDepth ≤ zmin) :
    ∃ m2, m.addlayerIso H vsv (some vsh) (some vpv) (some vph) (some vpf) (some rho)
        Qp Qs etap etas frefp frefs zmin = .ok m2 ∧
      m2.HArr = m.HArr ++ [H] ∧
      m2.col IsoCol.vp = m.col IsoCol.vp ++ [vpv] ∧
      m2.col IsoCol.vs = m.col IsoCol.vs ++ [vsv] ∧
      m2.col IsoCol.rho = m.col IsoCol.rho ++ [rho] ∧
      m2.col IsoCol.qp = m.col IsoCol.qp ++ [Qp] ∧
      m2.col IsoCol.qs = m.col IsoCol.qs ++ [Qs] ∧
      m2.col IsoCol.etap = m.col IsoCol.etap ++ [etap] ∧
      m2.col IsoCol.etas = m.col IsoCol.etas ++ [etas] ∧
      m2.col IsoCol.frefp = m.col IsoCol.frefp ++ [frefp] ∧
      m2.col IsoCol.frefs = m.col IsoCol.frefs ++ [frefs] ∧
      m2.DepthArr = cumsum (m.HArr ++ [H]) := by
  refine ⟨appendCore m H (fun f => match f with
      | .vp => vpv | .vs => vsv | .rho => rho
      | .qp => Qp | .qs => Qs | .etap => etap | .etas => etas
      | .frefp => frefp | .frefs => frefs), ?_,
    rfl, rfl, rfl, rfl, rfl, rfl, rfl, rfl, rfl, rfl, rfl⟩
  exact addlayerRaw_append m H _ zmin hne hz

/-- Witness for C3 at a concrete input. -/
theorem c3_iso_append_witness :
    (isoM0.DepthArr ≠ [] ∧ isoM0.totalDepth ≤ 9999) ∧
    ∃ m2, isoM0.addlayerIso 2 4 (some 4) (some 7) (some 7) (some 1) (some 3)
        200 100 0 0 1 1 9999 = .ok m2 ∧
      m2.HArr = isoM0.HArr ++ [2] ∧
      m2.col IsoCol.vp = isoM0.col IsoCol.vp ++ [7] ∧
      m2.col IsoCol.vs = isoM0.col IsoCol.vs ++ [4] ∧
      m2.col IsoCol.rho = isoM0.col IsoCol.rho ++ [3] ∧
      m2.col IsoCol.qp = isoM0.col IsoCol.qp ++ [200] ∧
      m2.col IsoCol.qs = isoM0.col IsoCol.qs ++ [100] ∧
      m2.col IsoCol.etap = isoM0.col IsoCol.etap ++ [0] ∧
      m2.col IsoCol.etas = isoM0.col IsoCol.etas ++ [0] ∧
      m2.col IsoCol.frefp = isoM0.col IsoCol.frefp ++ [1] ∧
      m2.col IsoCol.frefs = isoM0.col IsoCol.frefs ++ [1] ∧
      m2.DepthArr = cumsum (isoM0.HArr ++ [2]) :=
  ⟨⟨by with_unfolding_all decide, of_decide_eq_true (by with_unfolding_all rfl)⟩,
    c3_iso_append_appends_last isoM0 2 4 4 7 7 1 3 200 100 0 0 1 1 9999
      (by with_unfolding_all decide) (of_decide_eq_true (by with_unfolding_all rfl))⟩

/-- C9 amended: addlayer performs no validation of the new thickness.  On a
nonempty isotropic model with zmin at or past totalDepth, it returns
without error for every H, in particular for H at most 0, and appends the
non-positive thickness to HArr. -/
theorem c9_no_thickness_validation (m : Stack1d IsoCol)
    (H vsv vsh vpv vph vpf rho Qp Qs etap etas frefp frefs zmin : ℚ)
    (hne : m.DepthArr ≠ []) (hz : m.totalDepth ≤ zmin) (hH : H ≤ 0) :
    errKind (m.addlayerIso H vsv (some vsh) (some vpv) (some vph) (some vpf)
        (some rho) Qp Qs etap etas frefp frefs zmin) = none ∧
    resHArr (m.addlayerIso H vsv (some vsh) (some vpv) (some vph) (some vpf)
        (some rho) Qp Qs etap etas frefp frefs zmin) = some (m.HArr ++ [H]) := by
  have h : m.addlayerIso H vsv (some vsh) (some vpv) (some vph) (some vpf)
      (some rho) Qp Qs etap etas frefp frefs zmin = .ok (appendCore m H _) :=
    addlayerRaw_append m H _ zmin hne hz
  rw [h]
  exact ⟨rfl, rfl⟩

/-- Witness for C9 at a concrete input with H = 0. -/
theorem c9_no_thickness_validation_witness :
    (isoM0.DepthArr ≠ [] ∧ isoM0.totalDepth ≤ 9999 ∧ (0 : ℚ) ≤ 0) ∧
    (errKind (isoM0.addlayerIso 0 4 (some 4) (some 7) (some 7) (some 1) (some 3)
        200 100 0 0 1 1 9999) = none ∧
      resHArr (isoM0.addlayerIso 0 4 (some 4) (some 7) (some 7) (some 1) (some 3)
        200 100 0 0 1 1 9999) = some (isoM0.HArr ++ [0])) :=
  ⟨⟨by with_unfolding_all decide, of_decide_eq_true (by with_unfolding_all rfl),
      le_refl 0⟩,
    c9_no_thickness_validation isoM0 0 4 4 7 7 1 3 200 100 0 0 1 1 9999
      (by with_unfolding_all decide) (of_decide_eq_true (by with_unfolding_all rfl))
      (le_refl 0)⟩

/-- C8 amended: with the fraction in range, perturb rejects exactly the
known velocity names of the other variant with the incompatible-datatype
ValueError and the stack untouched: the five TI velocity names on an
isotropic stack (in particular vpv) and vs, vp on a transverse-isotropic
stack; names unknown to both variants are not rejected (see the
counterexample, where perturb returns silently). -/
theorem c8_wrong_variant_names_rejected (mI : Stack1d IsoCol) (mT : Stack1d TICol)
    (dm zmin zmax : ℚ) (h1 : -1 ≤ dm) (h2 : dm ≤ 1) :
    (∀ dt ∈ ["vsv", "vpv", "vsh", "vph", "vpf"],
      mI.perturbIso dm zmin zmax dt = .error (.valueIncompatible, mI)) ∧
    (∀ dt ∈ ["vs", "vp"],
      mT.perturbTI dm zmin zmax dt = .error (.valueIncompatible, mT)) := by
  have hdm : ¬ (1 < dm ∨ dm < -1) := by
    push_neg
    exact ⟨h2, h1⟩
  constructor
  · intro dt hdt
    simp only [List.mem_cons, List.not_mem_nil, or_false] at hdt
    rcases hdt with rfl | rfl | rfl | rfl | rfl <;>
      · show perturbCore _ _ _ _ _ _ _ _ _ _ = _
        unfold perturbCore
        rw [if_neg hdm, if_pos]
        rfl
  · intro dt hdt
    simp only [List.mem_cons, List.not_mem_nil, or_false] at hdt
    rcases hdt with rfl | rfl <;>
      · show perturbCore _ _ _ _ _ _ _ _ _ _ = _
        unfold perturbCore
        rw [if_neg hdm, if_pos]
        rfl

/-- Witness for C8 at concrete inputs. -/
theorem c8_wrong_variant_names_rejected_witness :
    ((-1 : ℚ) ≤ 1/10 ∧ (1/10 : ℚ) ≤ 1) ∧
    ((∀ dt ∈ ["vsv", "vpv", "vsh", "vph", "vpf"],
        isoM0.perturbIso (1/10) 0 10 dt = .error (.valueIncompatible, isoM0)) ∧
      (∀ dt ∈ ["vs", "vp"],
        tiM3.perturbTI (1/10) 0 10 dt = .error (.valueIncompatible, tiM3))) :=
  ⟨⟨by norm_num, by norm_num⟩,
    c8_wrong_variant_names_rejected isoM0 tiM3 (1/10) 0 10 (by norm_num) (by norm_num)⟩

/-! Toolkit lemmas about cumsum, boolean-mask filtering and threshold masks
on sorted lists, used to characterise the three addlayer branches. -/

theorem cumsumFrom_length (acc : ℚ) (l : List ℚ) :
    (cumsumFrom acc l).length = l.length := by
  induction l generalizing acc with
  | nil => rfl
  | cons x xs ih => simp [cumsumFrom, ih]

theorem cumsum_length (l : List ℚ) : (cumsum l).length = l.length :=
  cumsumFrom_length 0 l

theorem cumsumFrom_append (acc : ℚ) (l1 l2 : List ℚ) :
    cumsumFrom acc (l1 ++ l2) = cumsumFrom acc l1 ++ cumsumFrom (acc + l1.sum) l2 := by
  induction l1 generalizing acc with
  | nil => simp [cumsumFrom]
  | cons x xs ih => simp [cumsumFrom, ih, add_assoc]

theorem cumsumFrom_getElem? (acc : ℚ) (l : List ℚ) (i : ℕ) (h : i < l.length) :
    (cumsumFrom acc l)[i]? = some (acc + (l.take (i+1)).sum) := by
  induction l generalizing acc i with
  | nil => simp at h
  | cons x xs ih =>
    cases i with
    | zero => simp [cumsumFrom]
    | succ j =>
      have hj : j < xs.length := by simpa using h
      simp only [cumsumFrom, List.getElem?_cons_succ, ih (acc + x) j hj,
        List.take_succ_cons, List.sum_cons]
      ring_nf

theorem cumsumFrom_getD (acc : ℚ) (l : List ℚ) (i : ℕ) (h : i < l.length) :
    (cumsumFrom acc l).getD i 0 = acc + (l.take (i+1)).sum := by
  rw [List.getD_eq_getElem?_getD, cumsumFrom_getElem? acc l i h]
  rfl

theorem cumsumFrom_getLast? (acc : ℚ) (l : List ℚ) (h : l ≠ []) :
    (cumsumFrom acc l).getLast? = some (acc + l.sum) := by
  induction l generalizing acc with
  | nil => exact absurd rfl h
  | cons x xs ih =>
    cases hxs : xs with
    | nil => simp [cumsumFrom, hxs]
    | cons y ys =>
      subst hxs
      rw [cumsumFrom, List.getLast?_cons, ih (acc + x) (by simp)]
      simp [add_assoc]

theorem cumsum_getLastD (l : List ℚ) : (cumsum l).getLastD 0 = l.sum := by
  cases h : l with
  | nil => simp [cumsum, cumsumFrom]
  | cons x xs =>
    rw [List.getLastD_eq_getLast?, cumsum, cumsumFrom_getLast? 0 (x :: xs) (by simp)]
    simp

theorem mem_cumsumFrom_lt (acc : ℚ) (l : List ℚ) (hpos : ∀ x ∈ l, 0 < x) :
    ∀ y ∈ cumsumFrom acc l, acc < y := by
  induction l generalizing acc with
  | nil => intro y hy; simp [cumsumFrom] at hy
  | cons x xs ih =>
    intro y hy
    rcases (by simpa [cumsumFrom] using hy : y = acc + x ∨ y ∈ cumsumFrom (acc + x) xs)
      with rfl | hmem
    · linarith [hpos x (by simp)]
    · have := ih (acc + x) (fun z hz => hpos z (by simp [hz])) y hmem
      linarith [hpos x (by simp)]

theorem cumsumFrom_pairwise (acc : ℚ) (l : List ℚ) (hpos : ∀ x ∈ l, 0 < x) :
    (cumsumFrom acc l).Pairwise (fun a b => a < b) := by
  induction l generalizing acc with
  | nil => simp [cumsumFrom]
  | cons x xs ih =>
    rw [cumsumFrom]
    refine List.pairwise_cons.mpr ⟨?_, ih (acc + x) (fun z hz => hpos z (by simp [hz]))⟩
    exact mem_cumsumFrom_lt (acc + x) xs (fun z hz => hpos z (by simp [hz]))

theorem filt_nil (mask : List Bool) : filt mask [] = [] := by
  cases mask with
  | nil => rfl
  | cons b bs => cases b <;> rfl

theorem filt_replicate_true_append (k : ℕ) (rest : List Bool) (c : List ℚ) :
    filt (List.replicate k true ++ rest) c = c.take k ++ filt rest (c.drop k) := by
  induction k generalizing c with
  | zero => simp
  | succ j ih =>
    cases c with
    | nil => simp [filt_nil]
    | cons x xs => simp [List.replicate_succ, filt, ih]

theorem filt_replicate_false_append (k : ℕ) (rest : List Bool) (c : List ℚ) :
    filt (List.replicate k false ++ rest) c = filt rest (c.drop k) := by
  induction k generalizing c with
  | zero => simp
  | succ j ih =>
    cases c with
    | nil => simp [filt_nil]
    | cons x xs => simp [List.replicate_succ, filt, ih]

theorem filt_empty_mask (c : List ℚ) : filt [] c = [] := by
  cases c <;> rfl

theorem filt_prefix_mask (k r : ℕ) (c : List ℚ) :
    filt (List.replicate k true ++ List.replicate r false) c = c.take k := by
  rw [filt_replicate_true_append]
  rw [show List.replicate r false = List.replicate r false ++ [] by simp,
    filt_replicate_false_append]
  simp [filt_empty_mask]

theorem filt_suffix_mask (k r : ℕ) (c : List ℚ) :
    filt (List.replicate k false ++ List.replicate r true) c = (c.drop k).take r := by
  rw [filt_replicate_false_append]
  rw [show List.replicate r true = List.replicate r true ++ [] by simp,
    filt_replicate_true_append]
  simp [filt_empty_mask]

theorem map_false_of_forall {p : ℚ → Bool} {l : List ℚ}
    (h : ∀ y ∈ l, p y = false) : l.map p = List.replicate l.length false := by
  induction l with
  | nil => rfl
  | cons x xs ih =>
    simp only [List.map_cons, h x (by simp), List.length_cons, List.replicate_succ]
    rw [ih (fun y hy => h y (by simp [hy]))]

theorem countLe_le_length (z : ℚ) (d : List ℚ) : countLe z d ≤ d.length := by
  unfold countLe
  exact (List.takeWhile_sublist _).length_le

theorem countLt_le_length (z : ℚ) (d : List ℚ) : countLt z d ≤ d.length := by
  unfold countLt
  exact (List.takeWhile_sublist _).length_le

/-- On a strictly increasing list the at-most-z mask is a prefix of trues. -/
theorem mask_le_shape (z : ℚ) (d : List ℚ) (hs : d.Pairwise (fun a b => a < b)) :
    d.map (fun x => decide (x ≤ z))
      = List.replicate (countLe z d) true
        ++ List.replicate (d.length - countLe z d) false := by
  induction d with
  | nil => rfl
  | cons x xs ih =>
    rcases List.pairwise_cons.mp hs with ⟨hx, hxs⟩
    by_cases hxz : x ≤ z
    · have hcount : countLe z (x :: xs) = countLe z xs + 1 := by
        unfold countLe
        rw [List.takeWhile_cons_of_pos (by simpa using hxz)]
        simp
      simp only [List.map_cons, hcount, List.replicate_succ, List.length_cons]
      rw [show decide (x ≤ z) = true by simpa using hxz]
      have : xs.length + 1 - (countLe z xs + 1) = xs.length - countLe z xs := by omega
      rw [this, ih hxs]
      simp
    · have hcount : countLe z (x :: xs) = 0 := by
        unfold countLe
        rw [List.takeWhile_cons_of_neg (by simpa using hxz)]
        rfl
      have hall : ∀ y ∈ xs, decide (y ≤ z) = false := by
        intro y hy
        have : x < y := hx y hy
        simp only [decide_eq_false_iff_not, not_le]
        push_neg at hxz
        linarith
      simp only [List.map_cons, hcount, List.replicate_succ, List.length_cons]
      rw [show decide (x ≤ z) = false by simpa using hxz,
        map_false_of_forall hall]
      simp [List.replicate_succ]

/-- On a strictly increasing list the below-z mask is a prefix of trues. -/
theorem mask_lt_shape (z : ℚ) (d : List ℚ) (hs : d.Pairwise (fun a b => a < b)) :
    d.map (fun x => decide (x < z))
      = List.replicate (countLt z d) true
        ++ List.replicate (d.length - countLt z d) false := by
  induction d with
  | nil => rfl
  | cons x xs ih =>
    rcases List.pairwise_cons.mp hs with ⟨hx, hxs⟩
    by_cases hxz : x < z
    · have hcount : countLt z (x :: xs) = countLt z xs + 1 := by
        unfold countLt
        rw [List.takeWhile_cons_of_pos (by simpa using hxz)]
        simp
      simp only [List.map_cons, hcount, List.replicate_succ, List.length_cons]
      rw [show decide (x < z) = true by simpa using hxz]
      have : xs.length + 1 - (countLt z xs + 1) = xs.length - countLt z xs := by omega
      rw [this, ih hxs]
      simp
    · have hcount : countLt z (x :: xs) = 0 := by
        unfold countLt
        rw [List.takeWhile_cons_of_neg (by simpa using hxz)]
        rfl
      have hall : ∀ y ∈ xs, decide (y < z) = false := by
        intro y hy
        have : x < y := hx y hy
        simp only [decide_eq_false_iff_not, not_lt]
        push_neg at hxz
        linarith
      simp only [List.map_cons, hcount, List.replicate_succ, List.length_cons]
      rw [show decide (x < z) = false by simpa using hxz,
        map_false_of_forall hall]
      simp [List.replicate_succ]

/-- The above-z mask is the pointwise negation, a suffix of trues. -/
theorem mask_gt_shape (z : ℚ) (d : List ℚ) (hs : d.Pairwise (fun a b => a < b)) :
    d.map (fun x => decide (z < x))
      = List.replicate (countLe z d) false
        ++ List.replicate (d.length - countLe z d) true := by
  have h1 : d.map (fun x => decide (z < x))
      = (d.map (fun x => decide (x ≤ z))).map (fun b => !b) := by
    rw [List.map_map]
    refine List.map_congr_left (fun x _ => ?_)
    by_cases h : x ≤ z <;> simp [h, not_le, not_lt] <;> linarith
  rw [h1, mask_le_shape z d hs]
  simp

/-- The at-least-z mask is a suffix of trues. -/
theorem mask_ge_shape (z : ℚ) (d : List ℚ) (hs : d.Pairwise (fun a b => a < b)) :
    d.map (fun x => decide (z ≤ x))
      = List.replicate (countLt z d) false
        ++ List.replicate (d.length - countLt z d) true := by
  have h1 : d.map (fun x => decide (z ≤ x))
      = (d.map (fun x => decide (x < z))).map (fun b => !b) := by
    rw [List.map_map]
    refine List.map_congr_left (fun x _ => ?_)
    by_cases h : x < z <;> simp [h, not_le, not_lt] <;> linarith
  rw [h1, mask_lt_shape z d hs]
  simp

/-- Position i is below countLe exactly when the i-th entry is at most z
(strictly increasing list). -/
theorem countLe_iff (z : ℚ) (d : List ℚ) (hs : d.Pairwise (fun a b => a < b))
    (i : ℕ) (hi : i < d.length) : i < countLe z d ↔ d.getD i 0 ≤ z := by
  have hmap := congrArg (fun l => l[i]?) (mask_le_shape z d hs)
  simp only [List.getElem?_map] at hmap
  have hd : d[i]? = some (d.getD i 0) := by
    rw [List.getD_eq_getElem?_getD, List.getElem?_eq_getElem hi]
    rfl
  rw [hd] at hmap
  by_cases hik : i < countLe z d
  · rw [List.getElem?_append_left (by simpa using hik)] at hmap
    rw [List.getElem?_replicate_of_lt (by simpa using hik)] at hmap
    simp only [Option.map_eq_some'] at hmap
    rcases hmap with ⟨x, hx1, hx2⟩
    cases hx1
    constructor
    · intro _
      simpa using hx2.symm
    · intro _
      exact hik
  · have hik2 : countLe z d ≤ i := by omega
    rw [List.getElem?_append_right (by simpa using hik2)] at hmap
    have hlt : i - countLe z d < d.length - countLe z d := by
      have := countLe_le_length z d
      omega
    rw [List.getElem?_replicate_of_lt (by simpa using hlt)] at hmap
    simp only [Option.map_eq_some'] at hmap
    rcases hmap with ⟨x, hx1, hx2⟩
    cases hx1
    constructor
    · intro h
      omega
    · intro h
      exfalso
      have : decide (d.getD i 0 ≤ z) = false := hx2
      simp only [decide_eq_false_iff_not] at this
      exact this h

/-- Position i is below countLt exactly when the i-th entry is below z
(strictly increasing list). -/
theorem countLt_iff (z : ℚ) (d : List ℚ) (hs : d.Pairwise (fun a b => a < b))
    (i : ℕ) (hi : i < d.length) : i < countLt z d ↔ d.getD i 0 < z := by
  have hmap := congrArg (fun l => l[i]?) (mask_lt_shape z d hs)
  simp only [List.getElem?_map] at hmap
  have hd : d[i]? = some (d.getD i 0) := by
    rw [List.getD_eq_getElem?_getD, List.getElem?_eq_getElem hi]
    rfl
  rw [hd] at hmap
  by_cases hik : i < countLt z d
  · rw [List.getElem?_append_left (by simpa using hik)] at hmap
    rw [List.getElem?_replicate_of_lt (by simpa using hik)] at hmap
    simp only [Option.map_eq_some'] at hmap
    rcases hmap with ⟨x, hx1, hx2⟩
    cases hx1
    constructor
    · intro _
      simpa using hx2.symm
    · intro _
      exact hik
  · have hik2 : countLt z d ≤ i := by omega
    rw [List.getElem?_append_right (by simpa using hik2)] at hmap
    have hlt : i - countLt z d < d.length - countLt z d := by
      have := countLt_le_length z d
      omega
    rw [List.getElem?_replicate_of_lt (by simpa using hlt)] at hmap
    simp only [Option.map_eq_some'] at hmap
    rcases hmap with ⟨x, hx1, hx2⟩
    cases hx1
    constructor
    · intro h
      omega
    · intro h
      exfalso
      have : decide (d.getD i 0 < z) = false := hx2
      simp only [decide_eq_false_iff_not] at this
      exact this h

/-- arr[mask][0] on a suffix mask picks the entry at position k. -/
theorem firstWhere_suffix_mask (k r : ℕ) (l : List ℚ) (hr : 0 < r) :
    firstWhere (List.replicate k false ++ List.replicate r true) l = l[k]? := by
  unfold firstWhere
  rw [filt_suffix_mask, ← List.head?_drop]
  rcases hd : l.drop k with _ | ⟨x, xs⟩
  · simp
  · cases r with
    | zero => omega
    | succ r2 => simp

/-- arr[mask][-1] on a prefix mask picks the entry at position k - 1. -/
theorem lastWhere_prefix_mask (k r : ℕ) (l : List ℚ) (hk : 0 < k)
    (hkc : k ≤ l.length) :
    lastWhere (List.replicate k true ++ List.replicate r false) l = l[k-1]? := by
  unfold lastWhere
  rw [filt_prefix_mask, List.getLast?_eq_getElem?, List.length_take,
    List.getElem?_take_of_lt (by omega : min k l.length - 1 < k)]
  congr 1
  omega

theorem idxFirst_suffix_mask (k r : ℕ) :
    idxFirst (List.replicate k false ++ List.replicate r true)
      = if r = 0 then none else some k := by
  induction k with
  | zero =>
    cases r with
    | zero => rfl
    | succ r2 => simp [idxFirst, List.replicate_succ]
  | succ j ih =>
    have hstep : idxFirst (List.replicate (j+1) false ++ List.replicate r true)
        = (idxFirst (List.replicate j false ++ List.replicate r true)).map
            (fun i => i + 1) := by
      unfold idxFirst
      rw [List.replicate_succ, List.cons_append, List.findIdx?_cons]
      simp only [Bool.false_eq_true, if_false]
      exact List.findIdx?_succ
    rw [hstep, ih]
    cases r with
    | zero => rfl
    | succ r2 => simp

theorem idxLast_prefix_mask (k r : ℕ) :
    idxLast (List.replicate k true ++ List.replicate r false)
      = if k = 0 then none else some (k - 1) := by
  unfold idxLast
  rw [List.reverse_append, List.reverse_replicate, List.reverse_replicate,
    idxFirst_suffix_mask r k]
  cases hk : k with
  | zero => rfl
  | succ j =>
    simp only [Nat.succ_ne_zero, if_false]
    rw [List.length_append, List.length_replicate, List.length_replicate]
    congr 1
    omega

/-! Structural consequences of the stack invariants. -/

theorem StackInv.depth_length {F : Type} {m : Stack1d F} (h : StackInv m) :
    m.DepthArr.length = m.HArr.length := by
  rw [h.2.2, cumsum_length]

theorem StackInv.total_eq_sum {F : Type} {m : Stack1d F} (h : StackInv m) :
    m.totalDepth = m.HArr.sum := by
  rw [Stack1d.totalDepth, h.2.2, cumsum_getLastD]

theorem StackInv.depth_pairwise {F : Type} {m : Stack1d F} (h : StackInv m) :
    m.DepthArr.Pairwise (fun a b => a < b) := by
  rw [h.2.2]
  exact cumsumFrom_pairwise 0 m.HArr h.2.1

theorem StackInv.depth_pos {F : Type} {m : Stack1d F} (h : StackInv m) :
    ∀ y ∈ m.DepthArr, 0 < y := by
  rw [h.2.2]
  exact mem_cumsumFrom_lt 0 m.HArr h.2.1

theorem StackInv.depth_getD {F : Type} {m : Stack1d F} (h : StackInv m)
    (i : ℕ) (hi : i < m.HArr.length) :
    m.DepthArr.getD i 0 = (m.HArr.take (i+1)).sum := by
  rw [h.2.2, cumsum]
  rw [cumsumFrom_getD 0 m.HArr i hi]
  ring

theorem zipWith_sub_cumsumFrom (acc : ℚ) (H : List ℚ) :
    List.zipWith (fun d h => d - h) (cumsumFrom acc H) H
      = (acc :: cumsumFrom acc H).dropLast := by
  induction H generalizing acc with
  | nil => rfl
  | cons x xs ih =>
    show (acc + x - x) :: List.zipWith _ (cumsumFrom (acc + x) xs) xs = _
    rw [ih (acc + x)]
    have hne : (acc + x) :: cumsumFrom (acc + x) xs ≠ [] := by simp
    rw [show cumsumFrom acc (x :: xs) = (acc + x) :: cumsumFrom (acc + x) xs from rfl]
    rw [List.dropLast_cons_of_ne_nil hne]
    congr 1
    ring

theorem StackInv.topArr_eq {F : Type} {m : Stack1d F} (h : StackInv m) :
    m.topArr = (0 :: m.DepthArr).dropLast := by
  rw [Stack1d.topArr, h.2.2, cumsum, zipWith_sub_cumsumFrom]

theorem StackInv.topArr_length {F : Type} {m : Stack1d F} (h : StackInv m) :
    m.topArr.length = m.HArr.length := by
  rw [h.topArr_eq, List.length_dropLast, List.length_cons, h.depth_length]
  omega

theorem StackInv.topArr_getElem? {F : Type} {m : Stack1d F} (h : StackInv m)
    (i : ℕ) (hi : i < m.HArr.length) :
    m.topArr[i]? = (0 :: m.DepthArr)[i]? := by
  rw [h.topArr_eq, List.getElem?_dropLast, if_pos]
  simp only [List.length_cons, h.depth_length]
  omega

theorem StackInv.topArr_getD_zero {F : Type} {m : Stack1d F} (h : StackInv m)
    (hn : 0 < m.HArr.length) : m.topArr.getD 0 0 = 0 := by
  rw [List.getD_eq_getElem?_getD, h.topArr_getElem? 0 hn]
  simp

theorem StackInv.topArr_getD_succ {F : Type} {m : Stack1d F} (h : StackInv m)
    (i : ℕ) (hi : i + 1 < m.HArr.length) :
    m.topArr.getD (i+1) 0 = m.DepthArr.getD i 0 := by
  rw [List.getD_eq_getElem?_getD, h.topArr_getElem? (i+1) hi,
    List.getElem?_cons_succ, List.getD_eq_getElem?_getD]

theorem StackInv.topArr_pairwise {F : Type} {m : Stack1d F} (h : StackInv m) :
    m.topArr.Pairwise (fun a b => a < b) := by
  rw [h.topArr_eq]
  refine List.Pairwise.sublist (List.dropLast_sublist _) ?_
  exact List.pairwise_cons.mpr ⟨h.depth_pos, h.depth_pairwise⟩

theorem getElem?_eq_some_getD (l : List ℚ) (i : ℕ) (h : i < l.length) :
    l[i]? = some (l.getD i 0) := by
  rw [List.getD_eq_getElem?_getD, List.getElem?_eq_getElem h]
  rfl

theorem StackInv.depth_getD_last {F : Type} {m : Stack1d F} (h : StackInv m)
    (hne : m.HArr ≠ []) :
    m.DepthArr.getD (m.HArr.length - 1) 0 = m.totalDepth := by
  have hlen : m.DepthArr.length = m.HArr.length := h.depth_length
  have hDne : m.DepthArr ≠ [] := by
    intro hD
    rw [hD] at hlen
    exact hne (List.length_eq_zero.mp hlen.symm)
  rw [Stack1d.totalDepth, List.getLastD_eq_getLast?, List.getLast?_eq_getElem?,
    List.getD_eq_getElem?_getD, hlen]

/-- Workhorse: under the stack invariants, with 0 < zmin, 0 < newH and
zmin + newH at most the total depth, the interior branch succeeds and
produces exactly the three-segment stack interiorResult. -/
theorem interiorCore_ok {F : Type} [DecidableEq F] [Fintype F] (m : Stack1d F)
    (newH zmin : ℚ) (newv : F → ℚ) (hInv : StackInv m)
    (hlen : ∀ f : F, (m.col f).length = m.HArr.length)
    (h0 : 0 < zmin) (hH : 0 < newH) (hle : zmin + newH ≤ m.totalDepth) :
    interiorCore m newH newv zmin = .ok (interiorResult m newH newv zmin) := by
  set n := m.HArr.length with hn
  set zmax := zmin + newH with hzmax
  set jT := countLe zmin m.DepthArr with hjT
  set kB := countLt zmax m.topArr with hkB
  have hD_len : m.DepthArr.length = n := hInv.depth_length
  have hT_len : m.topArr.length = n := hInv.topArr_length
  have hne : m.HArr ≠ [] := by
    intro h
    have : m.totalDepth = 0 := by
      rw [hInv.total_eq_sum, h]
      rfl
    linarith
  have hnpos : 0 < n := by
    cases hcase : m.HArr with
    | nil => exact absurd hcase hne
    | cons x xs => simp [hn, hcase]
  have hjT_lt : jT < n := by
    by_contra hcon
    have hj2 : n - 1 < jT := by omega
    have := (countLe_iff zmin m.DepthArr hInv.depth_pairwise (n-1)
      (by omega)).mp (by omega)
    rw [hInv.depth_getD_last hne] at this
    linarith
  have hkB_pos : 0 < kB := by
    have h00 : m.topArr.getD 0 0 = 0 := hInv.topArr_getD_zero hnpos
    have := (countLt_iff zmax m.topArr hInv.topArr_pairwise 0
      (by rw [hT_len]; omega)).mpr (by rw [h00]; linarith)
    omega
  have hkB_le : kB ≤ n := by
    have := countLt_le_length zmax m.topArr
    omega
  have hmGT : m.DepthArr.map (fun d => decide (zmin < d))
      = List.replicate jT false ++ List.replicate (n - jT) true := by
    rw [mask_gt_shape zmin m.DepthArr hInv.depth_pairwise, hD_len, ← hjT]
  have hmT : m.DepthArr.map (fun d => decide (d ≤ zmin))
      = List.replicate jT true ++ List.replicate (n - jT) false := by
    rw [mask_le_shape zmin m.DepthArr hInv.depth_pairwise, hD_len, ← hjT]
  have hmLT : m.topArr.map (fun t => decide (t < zmax))
      = List.replicate kB true ++ List.replicate (n - kB) false := by
    rw [mask_lt_shape zmax m.topArr hInv.topArr_pairwise, hT_len, ← hkB]
  have hmB : m.topArr.map (fun t => decide (zmax ≤ t))
      = List.replicate kB false ++ List.replicate (n - kB) true := by
    rw [mask_ge_shape zmax m.topArr hInv.topArr_pairwise, hT_len, ← hkB]
  have hfwTop : firstWhere (m.DepthArr.map (fun d => decide (zmin < d))) m.topArr
      = some (m.topArr.getD jT 0) := by
    rw [hmGT, firstWhere_suffix_mask jT (n - jT) m.topArr (by omega),
      getElem?_eq_some_getD m.topArr jT (by omega)]
  have hfwCol : ∀ f : F, firstWhere (m.DepthArr.map (fun d => decide (zmin < d)))
      (m.col f) = some ((m.col f).getD jT 0) := by
    intro f
    rw [hmGT, firstWhere_suffix_mask jT (n - jT) (m.col f) (by omega),
      getElem?_eq_some_getD (m.col f) jT (by rw [hlen f]; omega)]
  have hlwD : lastWhere (m.topArr.map (fun t => decide (t < zmax))) m.DepthArr
      = some (m.DepthArr.getD (kB - 1) 0) := by
    rw [hmLT, lastWhere_prefix_mask kB (n - kB) m.DepthArr hkB_pos (by omega),
      getElem?_eq_some_getD m.DepthArr (kB - 1) (by omega)]
  have hlwCol : ∀ f : F, lastWhere (m.topArr.map (fun t => decide (t < zmax)))
      (m.col f) = some ((m.col f).getD (kB - 1) 0) := by
    intro f
    rw [hmLT, lastWhere_prefix_mask kB (n - kB) (m.col f) hkB_pos
        (by rw [hlen f]; omega),
      getElem?_eq_some_getD (m.col f) (kB - 1) (by rw [hlen f]; omega)]
  have hfiltT : ∀ c : List ℚ, filt (m.DepthArr.map (fun d => decide (d ≤ zmin))) c
      = c.take jT := by
    intro c
    rw [hmT, filt_prefix_mask]
  have hfiltB : ∀ c : List ℚ, c.length = n →
      filt (m.topArr.map (fun t => decide (zmax ≤ t))) c = c.drop kB := by
    intro c hc
    rw [hmB, filt_suffix_mask]
    apply List.take_of_length_le
    rw [List.length_drop, hc]
  have hfB_H : filt (m.topArr.map (fun t => decide (zmax ≤ t))) m.HArr
      = m.HArr.drop kB := hfiltB m.HArr rfl
  have hfB_col : ∀ f : F, filt (m.topArr.map (fun t => decide (zmax ≤ t))) (m.col f)
      = (m.col f).drop kB := fun f => hfiltB (m.col f) (hlen f)
  show interiorCore m newH newv zmin = _
  rw [interiorCore]
  simp only [← hzmax]
  simp only [hfwTop, hlwD, hfwCol, hlwCol, Option.isSome_some, not_true,
    and_false, if_false, Option.getD_some]
  rw [interiorResult]
  simp only [← hzmax, ← hjT, ← hkB]
  set tH := zmin - m.topArr.getD jT 0 with htH
  set bH := m.DepthArr.getD (kB - 1) 0 - zmax with hbH
  by_cases ht : tH = 0 <;> by_cases hb : bH = 0 <;>
    simp only [segT, segB, hfiltT, hfB_H, hfB_col, ht, hb, decide_not,
      decide_eq_true_eq, Bool.not_true, Bool.not_false,
      ne_eq, not_true, not_false_iff, false_and, and_false, implies_true,
      if_true, if_false, List.nil_append, List.append_nil, List.append_assoc,
      List.cons_append, Except.ok.injEq, Stack1d.mk.injEq]

theorem StackInv.sum_take {F : Type} {m : Stack1d F} (h : StackInv m)
    (j : ℕ) (hj1 : 1 ≤ j) (hj2 : j ≤ m.HArr.length) :
    (m.HArr.take j).sum = m.DepthArr.getD (j-1) 0 := by
  rw [h.depth_getD (j-1) (by omega)]
  congr 2
  omega

theorem StackInv.topArr_getD_eq {F : Type} {m : Stack1d F} (h : StackInv m)
    (j : ℕ) (hj : j < m.HArr.length) :
    m.topArr.getD j 0 = if j = 0 then 0 else m.DepthArr.getD (j-1) 0 := by
  cases j with
  | zero =>
    rw [if_pos rfl]
    exact h.topArr_getD_zero (by omega)
  | succ i =>
    rw [h.topArr_getD_succ i hj]
    simp

theorem StackInv.sum_take_eq_topArr {F : Type} {m : Stack1d F} (h : StackInv m)
    (j : ℕ) (hj : j < m.HArr.length) :
    (m.HArr.take j).sum = m.topArr.getD j 0 := by
  rw [h.topArr_getD_eq j hj]
  cases hj0 : j with
  | zero => simp
  | succ i =>
    rw [if_neg (by omega), ← hj0, h.sum_take j (by omega) (by omega)]

/-- The straddled top value is at most zmin (so the top fragment is never
negative). -/
theorem interior_tTop_le {F : Type} {m : Stack1d F} (hInv : StackInv m)
    {zmin : ℚ} (h0 : 0 < zmin) (hjT : countLe zmin m.DepthArr < m.HArr.length) :
    m.topArr.getD (countLe zmin m.DepthArr) 0 ≤ zmin := by
  rw [hInv.topArr_getD_eq _ hjT]
  set jT := countLe zmin m.DepthArr with hj
  cases hcase : jT with
  | zero => simpa using le_of_lt h0
  | succ i =>
    rw [if_neg (by omega)]
    have := (countLe_iff zmin m.DepthArr hInv.depth_pairwise (jT - 1)
      (by rw [hInv.depth_length]; omega)).mp (by omega)
    simpa [hcase] using this

/-- The straddled bottom value is at least zmax (so the bottom fragment is
never negative), provided zmax is at most the total depth. -/
theorem interior_bD_ge {F : Type} {m : Stack1d F} (hInv : StackInv m)
    {zmax : ℚ} (hne : m.HArr ≠ []) (hle : zmax ≤ m.totalDepth)
    (hkB_pos : 0 < countLt zmax m.topArr)
    (hkB_le : countLt zmax m.topArr ≤ m.HArr.length) :
    zmax ≤ m.DepthArr.getD (countLt zmax m.topArr - 1) 0 := by
  by_cases hkn : countLt zmax m.topArr = m.HArr.length
  · rw [hkn, hInv.depth_getD_last hne]
    exact hle
  · have hklt : countLt zmax m.topArr < m.HArr.length := by omega
    have hnot : ¬ (countLt zmax m.topArr < countLt zmax m.topArr) := by omega
    rw [countLt_iff zmax m.topArr hInv.topArr_pairwise (countLt zmax m.topArr)
      (by rw [hInv.topArr_length]; omega)] at hnot
    push_neg at hnot
    have heq := hInv.topArr_getD_eq (countLt zmax m.topArr) hklt
    rw [if_neg (by omega)] at heq
    rw [← heq]
    exact hnot

theorem StackInv.ne_nil_of_total_pos {F : Type} {m : Stack1d F} (hInv : StackInv m)
    (h : 0 < m.totalDepth) : m.HArr ≠ [] := by
  intro hn
  rw [hInv.total_eq_sum, hn] at h
  simp at h

theorem interior_jT_lt {F : Type} {m : Stack1d F} (hInv : StackInv m)
    {zmin : ℚ} (hne : m.HArr ≠ []) (hlt : zmin < m.totalDepth) :
    countLe zmin m.DepthArr < m.HArr.length := by
  have hnpos : 0 < m.HArr.length := by
    cases hcase : m.HArr with
    | nil => exact absurd hcase hne
    | cons x xs => simp [hcase]
  by_contra hcon
  have := (countLe_iff zmin m.DepthArr hInv.depth_pairwise (m.HArr.length - 1)
    (by rw [hInv.depth_length]; omega)).mp (by omega)
  rw [hInv.depth_getD_last hne] at this
  linarith

theorem interior_kB_pos {F : Type} {m : Stack1d F} (hInv : StackInv m)
    {zmax : ℚ} (hnpos : 0 < m.HArr.length) (hpos : 0 < zmax) :
    0 < countLt zmax m.topArr := by
  have h00 : m.topArr.getD 0 0 = 0 := hInv.topArr_getD_zero hnpos
  have := (countLt_iff zmax m.topArr hInv.topArr_pairwise 0
    (by rw [hInv.topArr_length]; omega)).mpr (by rw [h00]; linarith)
  omega

/-- The interior insertion preserves the stack invariants and the total
depth, provided it stays within the stack (0 < zmin, 0 < newH,
zmin + newH at most totalDepth). -/
theorem interiorResult_inv {F : Type} (m : Stack1d F) (newH zmin : ℚ)
    (newv : F → ℚ) (hInv : StackInv m)
    (h0 : 0 < zmin) (hH : 0 < newH) (hle : zmin + newH ≤ m.totalDepth) :
    StackInv (interiorResult m newH newv zmin) ∧
      (interiorResult m newH newv zmin).totalDepth = m.totalDepth := by
  have hlen := hInv.1
  set n := m.HArr.length with hn
  set zmax := zmin + newH with hzmax
  set jT := countLe zmin m.DepthArr with hjT
  set kB := countLt zmax m.topArr with hkB
  have hne : m.HArr ≠ [] := hInv.ne_nil_of_total_pos (by linarith)
  have hnpos : 0 < n := by
    cases hcase : m.HArr with
    | nil => exact absurd hcase hne
    | cons x xs => simp [hn, hcase]
  have hjT_lt : jT < n := interior_jT_lt hInv hne (by linarith)
  have hkB_pos : 0 < kB := interior_kB_pos hInv hnpos (by linarith)
  have hkB_le : kB ≤ n := by
    have := countLt_le_length zmax m.topArr
    rw [hInv.topArr_length] at this
    omega
  have htTop : m.topArr.getD jT 0 ≤ zmin := interior_tTop_le hInv h0 hjT_lt
  have hbD : zmax ≤ m.DepthArr.getD (kB - 1) 0 :=
    interior_bD_ge hInv hne hle hkB_pos hkB_le
  have hsumA : (m.HArr.take jT).sum = m.topArr.getD jT 0 :=
    hInv.sum_take_eq_topArr jT hjT_lt
  have hsumK : (m.HArr.take kB).sum = m.DepthArr.getD (kB - 1) 0 :=
    hInv.sum_take kB hkB_pos hkB_le
  have hsumB : (m.HArr.drop kB).sum = m.HArr.sum - m.DepthArr.getD (kB - 1) 0 := by
    have := List.sum_take_add_sum_drop m.HArr kB
    rw [hsumK] at this
    linarith
  rw [interiorResult]
  simp only [← hzmax, ← hjT, ← hkB]
  constructor
  · refine ⟨?_, ?_, rfl⟩
    · intro f
      simp only [List.length_append, List.length_take, List.length_cons,
        List.length_drop, hlen f]
      rw [apply_ite (List.length (α := ℚ)), apply_ite (List.length (α := ℚ)),
        apply_ite (List.length (α := ℚ)), apply_ite (List.length (α := ℚ))]
      simp only [List.length_singleton, List.length_nil, ← hn]
    · intro x hx
      simp only [List.mem_append, List.mem_cons] at hx
      rcases hx with hx | hx
      · exact hInv.2.1 x (List.mem_of_mem_take hx)
      rcases hx with hx | hx
      · by_cases ht : zmin - m.topArr.getD jT 0 = 0
        · rw [if_neg (by simpa using ht)] at hx
          simp at hx
        · rw [if_pos (by simpa using ht)] at hx
          simp only [List.mem_singleton] at hx
          subst hx
          cases lt_or_eq_of_le htTop with
          | inl hlt => linarith
          | inr heq => exact absurd (by rw [heq]; ring) ht
      rcases hx with rfl | hx
      · exact hH
      rcases hx with hx | hx
      · by_cases hb : m.DepthArr.getD (kB - 1) 0 - zmax = 0
        · rw [if_neg (by simpa using hb)] at hx
          simp at hx
        · rw [if_pos (by simpa using hb)] at hx
          simp only [List.mem_singleton] at hx
          subst hx
          cases lt_or_eq_of_le hbD with
          | inl hlt => linarith
          | inr heq => exact absurd (by rw [← heq]; ring) hb
      · exact hInv.2.1 x (List.mem_of_mem_drop hx)
  · rw [Stack1d.totalDepth]
    show (cumsum _).getLastD 0 = _
    rw [cumsum_getLastD, hInv.total_eq_sum]
    by_cases ht : zmin - m.topArr.getD jT 0 = 0 <;>
      by_cases hb : m.DepthArr.getD (kB - 1) 0 - zmax = 0 <;>
        simp only [ht, hb, if_pos, if_neg, ne_eq, not_true, not_false_iff,
          if_true, if_false, List.sum_append, List.sum_cons, List.sum_nil,
          hsumA, hsumB] <;>
      [skip; skip; skip; skip] <;>
      first
        | (rw [show m.topArr.getD jT 0 = zmin by linarith,
            show m.DepthArr.getD (kB-1) 0 = zmax by linarith]; ring)
        | (rw [show m.topArr.getD jT 0 = zmin by linarith]; ring)
        | (rw [show m.DepthArr.getD (kB-1) 0 = zmax by linarith]; ring)
        | ring

/-- Layers above the insertion point are untouched by an interior
insertion: same thickness, columns and bottom depth at the same index. -/
theorem interiorResult_prefix {F : Type} (m : Stack1d F) (newH zmin : ℚ)
    (newv : F → ℚ) (hInv : StackInv m) (i : ℕ)
    (hi : i < countLe zmin m.DepthArr) :
    (interiorResult m newH newv zmin).HArr.getD i 0 = m.HArr.getD i 0 ∧
    (∀ f : F, ((interiorResult m newH newv zmin).col f).getD i 0
      = (m.col f).getD i 0) ∧
    (interiorResult m newH newv zmin).DepthArr.getD i 0 = m.DepthArr.getD i 0 := by
  have hlen := hInv.1
  set n := m.HArr.length with hn
  set jT := countLe zmin m.DepthArr with hjT
  have hjT_le : jT ≤ n := by
    have := countLe_le_length zmin m.DepthArr
    rw [hInv.depth_length] at this
    omega
  have hgetA : ∀ c : List ℚ, c.length = n →
      ∀ rest : List ℚ, (c.take jT ++ rest).getD i 0 = c.getD i 0 := by
    intro c hc rest
    rw [List.getD_append _ _ _ _ (by rw [List.length_take, hc]; omega)]
    rw [List.getD_eq_getElem?_getD, List.getD_eq_getElem?_getD,
      List.getElem?_take_of_lt (by omega)]
  refine ⟨hgetA m.HArr rfl _, fun f => hgetA (m.col f) (hlen f) _, ?_⟩
  show (cumsum _).getD i 0 = _
  have hlenH2 : i < (m.HArr.take jT
      ++ ((if zmin - m.topArr.getD jT 0 ≠ 0 then [zmin - m.topArr.getD jT 0] else [])
        ++ newH :: ((if m.DepthArr.getD (countLt (zmin+newH) m.topArr - 1) 0
            - (zmin+newH) ≠ 0
          then [m.DepthArr.getD (countLt (zmin+newH) m.topArr - 1) 0 - (zmin+newH)]
          else [])
          ++ m.HArr.drop (countLt (zmin+newH) m.topArr)))).length := by
    simp only [List.length_append, List.length_take, List.length_cons]
    omega
  rw [cumsum, cumsumFrom_getD _ _ i hlenH2]
  rw [List.take_append_of_le_length (by rw [List.length_take]; omega)]
  rw [List.take_take]
  rw [show min (i+1) jT = i + 1 by omega]
  rw [hInv.depth_getD i (by omega)]
  ring

theorem getD_drop_plus (l : List ℚ) (k q : ℕ) :
    (l.drop k).getD q 0 = l.getD (k+q) 0 := by
  rw [List.getD_eq_getElem?_getD, List.getD_eq_getElem?_getD, List.getElem?_drop]

theorem sum_take_drop (l : List ℚ) (k q : ℕ) :
    ((l.drop k).take q).sum = (l.take (k+q)).sum - (l.take k).sum := by
  rw [List.take_drop]
  have h1 := List.sum_take_add_sum_drop (l.take (k+q)) k
  rw [List.take_take, show min k (k+q) = k by omega] at h1
  linarith

theorem cumsum_getD_suffix (pre B : List ℚ) (q : ℕ) (hq : q < B.length) :
    (cumsum (pre ++ B)).getD (pre.length + q) 0 = pre.sum + (B.take (q+1)).sum := by
  rw [cumsum, cumsumFrom_getD _ _ _ (by rw [List.length_append]; omega)]
  rw [show pre.length + q + 1 = pre.length + (q + 1) by omega, List.take_append]
  rw [List.sum_append]
  ring

/-- Layers below the insertion range are preserved by an interior
insertion, shifted to sit after the rebuilt prefix: same thickness,
columns and bottom depth. -/
theorem interiorResult_suffix {F : Type} (m : Stack1d F) (newH zmin : ℚ)
    (newv : F → ℚ) (hInv : StackInv m)
    (h0 : 0 < zmin) (hH : 0 < newH) (hle : zmin + newH ≤ m.totalDepth)
    (i : ℕ) (hkBi : countLt (zmin + newH) m.topArr ≤ i) (hi : i < m.HArr.length) :
    ∃ j, j < (interiorResult m newH newv zmin).HArr.length ∧
      (interiorResult m newH newv zmin).HArr.getD j 0 = m.HArr.getD i 0 ∧
      (∀ f : F, ((interiorResult m newH newv zmin).col f).getD j 0
        = (m.col f).getD i 0) ∧
      (interiorResult m newH newv zmin).DepthArr.getD j 0
        = m.DepthArr.getD i 0 := by
  have hlen := hInv.1
  set n := m.HArr.length with hn
  set zmax := zmin + newH with hzmax
  set jT := countLe zmin m.DepthArr with hjT
  set kB := countLt zmax m.topArr with hkB
  have hne : m.HArr ≠ [] := hInv.ne_nil_of_total_pos (by linarith)
  have hjT_lt : jT < n := interior_jT_lt hInv hne (by linarith)
  have hnpos : 0 < n := by omega
  have hkB_pos : 0 < kB := interior_kB_pos hInv hnpos (by linarith)
  have hkB_le : kB ≤ n := by
    have := countLt_le_length zmax m.topArr
    rw [hInv.topArr_length] at this
    omega
  have htTop : m.topArr.getD jT 0 ≤ zmin := interior_tTop_le hInv h0 hjT_lt
  have hbD : zmax ≤ m.DepthArr.getD (kB - 1) 0 :=
    interior_bD_ge hInv hne hle hkB_pos hkB_le
  have hsumA : (m.HArr.take jT).sum = m.topArr.getD jT 0 :=
    hInv.sum_take_eq_topArr jT hjT_lt
  have hsumK : (m.HArr.take kB).sum = m.DepthArr.getD (kB - 1) 0 :=
    hInv.sum_take kB hkB_pos hkB_le
  set tH := zmin - m.topArr.getD jT 0 with htH
  set bH := m.DepthArr.getD (kB - 1) 0 - zmax with hbH
  set preH : List ℚ := m.HArr.take jT ++ ((if tH ≠ 0 then [tH] else [])
      ++ newH :: (if bH ≠ 0 then [bH] else [])) with hpreH
  have hsplitH : (interiorResult m newH newv zmin).HArr
      = preH ++ m.HArr.drop kB := by
    rw [interiorResult]
    simp only [← hzmax, ← hjT, ← hkB, ← htH, ← hbH, hpreH]
    simp only [List.cons_append, List.append_assoc]
  have hsplitC : ∀ f : F, (interiorResult m newH newv zmin).col f
      = (m.col f).take jT ++ ((if tH ≠ 0 then [(m.col f).getD jT 0] else [])
        ++ newv f :: (if bH ≠ 0 then [(m.col f).getD (kB-1) 0] else []))
        ++ (m.col f).drop kB := by
    intro f
    rw [interiorResult]
    simp only [← hzmax, ← hjT, ← hkB, ← htH, ← hbH]
    simp only [List.cons_append, List.append_assoc]
  have hsplitD : (interiorResult m newH newv zmin).DepthArr
      = cumsum (preH ++ m.HArr.drop kB) := by
    rw [interiorResult]
    simp only [← hzmax, ← hjT, ← hkB, ← htH, ← hbH, hpreH]
    simp only [List.cons_append, List.append_assoc]
  have hpreH_len : preH.length
      = jT + ((if tH ≠ 0 then 1 else 0) + 1 + (if bH ≠ 0 then 1 else 0)) := by
    rw [hpreH]
    simp only [List.length_append, List.length_take, List.length_cons]
    rw [apply_ite (List.length (α := ℚ)), apply_ite (List.length (α := ℚ))]
    simp only [List.length_singleton, List.length_nil]
    omega
  have hpreC_len : ∀ f : F, ((m.col f).take jT
      ++ ((if tH ≠ 0 then [(m.col f).getD jT 0] else [])
        ++ newv f :: (if bH ≠ 0 then [(m.col f).getD (kB-1) 0] else []))).length
      = preH.length := by
    intro f
    rw [hpreH_len]
    simp only [List.length_append, List.length_take, List.length_cons, hlen f]
    rw [apply_ite (List.length (α := ℚ)), apply_ite (List.length (α := ℚ))]
    simp only [List.length_singleton, List.length_nil]
    omega
  have hpreH_sum : preH.sum = m.DepthArr.getD (kB - 1) 0 := by
    rw [hpreH]
    simp only [List.sum_append, List.sum_cons]
    rw [apply_ite (List.sum (α := ℚ)), apply_ite (List.sum (α := ℚ))]
    simp only [List.sum_singleton, List.sum_nil, hsumA]
    by_cases ht : tH = 0 <;> by_cases hb : bH = 0 <;>
      simp only [ht, hb, ne_eq, not_true, not_false_iff, if_true, if_false] <;>
      [skip; skip; skip; skip] <;>
      first
        | (rw [show m.topArr.getD jT 0 = zmin by rw [htH] at ht; linarith,
            show m.DepthArr.getD (kB-1) 0 = zmax by rw [hbH] at hb; linarith]; ring)
        | (rw [show m.topArr.getD jT 0 = zmin by rw [htH] at ht; linarith]
           rw [hbH]; ring)
        | (rw [show m.DepthArr.getD (kB-1) 0 = zmax by rw [hbH] at hb; linarith]
           rw [htH]; ring)
        | (rw [htH, hbH]; ring)
  refine ⟨preH.length + (i - kB), ?_, ?_, ?_, ?_⟩
  · have h1 : (preH ++ m.HArr.drop kB).length = preH.length + (n - kB) := by
      rw [List.length_append, List.length_drop]
    rw [hsplitH, h1]
    omega
  · rw [hsplitH, List.getD_append_right _ _ _ _ (by omega), Nat.add_sub_cancel_left,
      getD_drop_plus, show kB + (i - kB) = i by omega]
  · intro f
    rw [hsplitC f, List.getD_append_right _ _ _ _ (by rw [hpreC_len f]; omega),
      hpreC_len f, Nat.add_sub_cancel_left, getD_drop_plus,
      show kB + (i - kB) = i by omega]
  · rw [hsplitD, cumsum_getD_suffix _ _ _ (by rw [List.length_drop]; omega)]
    rw [sum_take_drop, hpreH_sum, hsumK,
      show kB + (i - kB + 1) = i + 1 by omega,
      hInv.depth_getD i (by omega)]
    ring

/-- The append branch preserves the invariants and adds newH to the total
depth. -/
theorem appendCore_inv {F : Type} (m : Stack1d F) (newH : ℚ) (newv : F → ℚ)
    (hInv : StackInv m) (hH : 0 < newH) :
    StackInv (appendCore m newH newv) ∧
      (appendCore m newH newv).totalDepth = m.totalDepth + newH := by
  refine ⟨⟨?_, ?_, rfl⟩, ?_⟩
  · intro f
    show (m.col f ++ [newv f]).length = (m.HArr ++ [newH]).length
    simp [hInv.1 f]
  · intro x hx
    rcases List.mem_append.mp hx with hx | hx
    · exact hInv.2.1 x hx
    · rw [List.mem_singleton.mp hx]
      exact hH
  · show (cumsum _).getLastD 0 = _
    rw [cumsum_getLastD, hInv.total_eq_sum, List.sum_append]
    simp

/-- The prepend branch succeeds when the new thickness is below the total
depth; it discards the covered layers, shortens the first survivor and
prepends the new layer, preserving the invariants and the total depth. -/
theorem prependCore_ok {F : Type} (m : Stack1d F) (newH : ℚ) (newv : F → ℚ)
    (hInv : StackInv m) (hH : 0 < newH) (hlt : newH < m.totalDepth) :
    ∃ m2, prependCore m newH newv = .ok m2 ∧ StackInv m2 ∧
      m2.totalDepth = m.totalDepth ∧
      m2.HArr = newH :: (m.DepthArr.getD (countLe newH m.DepthArr) 0 - newH)
        :: m.HArr.drop (countLe newH m.DepthArr + 1) ∧
      (∀ f : F, m2.col f = newv f :: (m.col f).drop (countLe newH m.DepthArr)) := by
  have hlen := hInv.1
  set n := m.HArr.length with hn
  set k := countLe newH m.DepthArr with hk
  have hne : m.HArr ≠ [] := hInv.ne_nil_of_total_pos (by linarith)
  have hk_lt : k < n := interior_jT_lt hInv hne hlt
  have hmask : m.DepthArr.map (fun d => decide (newH < d))
      = List.replicate k false ++ List.replicate (n - k) true := by
    rw [mask_gt_shape newH m.DepthArr hInv.depth_pairwise, hInv.depth_length, ← hk]
  have hfw : firstWhere (m.DepthArr.map (fun d => decide (newH < d))) m.DepthArr
      = some (m.DepthArr.getD k 0) := by
    rw [hmask, firstWhere_suffix_mask k (n - k) m.DepthArr (by omega),
      getElem?_eq_some_getD m.DepthArr k (by rw [hInv.depth_length]; omega)]
  have hfilt : ∀ c : List ℚ, c.length = n →
      filt (m.DepthArr.map (fun d => decide (newH < d))) c = c.drop k := by
    intro c hc
    rw [hmask, filt_suffix_mask]
    apply List.take_of_length_le
    rw [List.length_drop, hc]
  have hdk_gt : newH < m.DepthArr.getD k 0 := by
    have : ¬ (k < k) := by omega
    rw [countLe_iff newH m.DepthArr hInv.depth_pairwise k
      (by rw [hInv.depth_length]; omega)] at this
    push_neg at this
    exact this
  have hdropk : m.HArr.drop k ≠ [] := by
    intro hd
    have := congrArg List.length hd
    rw [List.length_drop] at this
    simp at this
    omega
  have hsetdrop : (m.HArr.drop k).set 0 (m.DepthArr.getD k 0 - newH)
      = (m.DepthArr.getD k 0 - newH) :: m.HArr.drop (k + 1) := by
    rcases hd : m.HArr.drop k with _ | ⟨x, xs⟩
    · exact absurd hd hdropk
    · have hxs : xs = m.HArr.drop (k + 1) := by
        have := congrArg (List.drop 1) hd
        rw [List.drop_drop] at this
        simpa [Nat.add_comm] using this.symm
      rw [List.set_cons_zero, hxs]
  rw [prependCore]
  simp only [hfw, hfilt m.HArr rfl, hsetdrop]
  refine ⟨_, rfl, ⟨?_, ?_, rfl⟩, ?_, rfl, fun f => by
    show newv f :: filt _ (m.col f) = _
    rw [hfilt (m.col f) (hlen f)]⟩
  · intro f
    show (newv f :: filt _ (m.col f)).length = _
    rw [hfilt (m.col f) (hlen f)]
    simp only [List.length_cons, List.length_drop, hlen f]
    omega
  · intro x hx
    simp only [List.mem_cons] at hx
    rcases hx with rfl | hx
    · exact hH
    rcases hx with rfl | hx
    · linarith
    · exact hInv.2.1 x (List.mem_of_mem_drop hx)
  · show (cumsum _).getLastD 0 = _
    rw [cumsum_getLastD, hInv.total_eq_sum]
    simp only [List.sum_cons]
    have h1 : (m.HArr.drop (k+1)).sum = m.HArr.sum - (m.HArr.take (k+1)).sum := by
      have := List.sum_take_add_sum_drop m.HArr (k+1)
      linarith
    rw [h1, hInv.sum_take (k+1) (by omega) (by omega)]
    simp only [Nat.add_sub_cancel]
    ring

theorem sum_take_succ_getD (l : List ℚ) (j : ℕ) (hj : j < l.length) :
    (l.take (j+1)).sum = (l.take j).sum + l.getD j 0 := by
  rw [List.take_succ, List.sum_append, List.getD_eq_getElem?_getD,
    List.getElem?_eq_getElem hj]
  simp

/-- The stack invariants imply the well-formedness stated in the claims. -/
theorem StackInv.good {F : Type} {m : Stack1d F} (h : StackInv m) : GoodStack m := by
  refine ⟨h.1, h.2.1, h.depth_pairwise, ?_, ?_⟩
  · intro i hi
    have hlen : m.DepthArr.length = m.HArr.length := h.depth_length
    rw [h.depth_getD (i+1) (by omega), h.depth_getD i (by omega),
      sum_take_succ_getD m.HArr (i+1) (by omega)]
    ring
  · intro hpos
    have hlen : m.DepthArr.length = m.HArr.length := h.depth_length
    rw [h.depth_getD 0 (by omega)]
    rw [sum_take_succ_getD m.HArr 0 (by omega)]
    simp

/-- Dispatch: the interior branch runs when zmin is strictly between 0 and
the total depth. -/
theorem addlayerRaw_interior {F : Type} [DecidableEq F] [Fintype F]
    (m : Stack1d F) (newH : ℚ) (newv : F → ℚ) (zmin : ℚ)
    (hne : m.DepthArr ≠ []) (h1 : ¬ (m.totalDepth ≤ zmin)) (h2 : ¬ (zmin ≤ 0)) :
    addlayerRaw m newH newv zmin = interiorCore m newH newv zmin := by
  simp only [addlayerRaw, getLast?_eq_totalDepth m hne]
  rw [if_neg h1, if_neg h2]

/-- Dispatch: the prepend branch runs when zmin is at most 0 and below the
total depth. -/
theorem addlayerRaw_prepend {F : Type} [DecidableEq F] [Fintype F]
    (m : Stack1d F) (newH : ℚ) (newv : F → ℚ) (zmin : ℚ)
    (hne : m.DepthArr ≠ []) (h1 : ¬ (m.totalDepth ≤ zmin)) (h2 : zmin ≤ 0) :
    addlayerRaw m newH newv zmin = prependCore m newH newv := by
  simp only [addlayerRaw, getLast?_eq_totalDepth m hne]
  rw [if_neg h1, if_pos h2]

/-- The TI dispatch agrees with the isotropic one away from the append
branch. -/
theorem addlayerRawTI_nonappend (m : Stack1d TICol) (newH : ℚ) (newv : TICol → ℚ)
    (zmin : ℚ) (hne : m.DepthArr ≠ []) (h1 : ¬ (m.totalDepth ≤ zmin)) :
    addlayerRawTI m newH newv zmin = addlayerRaw m newH newv zmin := by
  simp only [addlayerRawTI, addlayerRaw, getLast?_eq_totalDepth m hne]
  rw [if_neg h1, if_neg h1]

/-- C5 amended: under the stack invariants and 0 < H, an append (zmin at or
past totalDepth, nonempty stack) succeeds with total depth
totalDepth + H (not max(totalDepth, zmin + H)) and an invariant-satisfying
output; an interior insertion with 0 < zmin and zmin + H at most
totalDepth succeeds with total depth max(totalDepth, zmin + H) (= the old
total depth) and an invariant-satisfying output.  Insertions whose range
leaves the stack (zmin + H past totalDepth with zmin < totalDepth) do not
obey the max formula (see the counterexample). -/
theorem c5_total_depth_cases (m : Stack1d IsoCol)
    (H vsv vsh vpv vph vpf rho Qp Qs etap etas frefp frefs zmin : ℚ)
    (hInv : StackInv m) (hH : 0 < H) :
    (m.HArr ≠ [] → m.totalDepth ≤ zmin →
      ∃ m2, m.addlayerIso H vsv (some vsh) (some vpv) (some vph) (some vpf)
          (some rho) Qp Qs etap etas frefp frefs zmin = .ok m2 ∧
        m2.totalDepth = m.totalDepth + H ∧ GoodStack m2) ∧
    (0 < zmin → zmin + H ≤ m.totalDepth →
      ∃ m2, m.addlayerIso H vsv (some vsh) (some vpv) (some vph) (some vpf)
          (some rho) Qp Qs etap etas frefp frefs zmin = .ok m2 ∧
        m2.totalDepth = max m.totalDepth (zmin + H) ∧ GoodStack m2) := by
  constructor
  · intro hne hz
    have hDne : m.DepthArr ≠ [] := by
      intro hD
      have := hInv.depth_length
      rw [hD] at this
      exact hne (List.length_eq_zero.mp this.symm)
    refine ⟨_, addlayerRaw_append m H _ zmin hDne hz, ?_, ?_⟩
    · exact (appendCore_inv m H _ hInv hH).2
    · exact (appendCore_inv m H _ hInv hH).1.good
  · intro h0 hle
    have hne : m.HArr ≠ [] := hInv.ne_nil_of_total_pos (by linarith)
    have hDne : m.DepthArr ≠ [] := by
      intro hD
      have := hInv.depth_length
      rw [hD] at this
      exact hne (List.length_eq_zero.mp this.symm)
    have hds : m.addlayerIso H vsv (some vsh) (some vpv) (some vph) (some vpf)
        (some rho) Qp Qs etap etas frefp frefs zmin
        = interiorCore m H (fun f => match f with
            | .vp => vpv | .vs => vsv | .rho => rho
            | .qp => Qp | .qs => Qs | .etap => etap | .etas => etas
            | .frefp => frefp | .frefs => frefs) zmin := by
      apply addlayerRaw_interior m H _ zmin hDne (by linarith) (by linarith)
    rw [hds, interiorCore_ok m H zmin _ hInv hInv.1 h0 hH hle]
    refine ⟨_, rfl, ?_, ?_⟩
    · rw [(interiorResult_inv m H zmin _ hInv h0 hH hle).2, max_eq_left hle]
    · exact (interiorResult_inv m H zmin _ hInv h0 hH hle).1.good

/-- The example model isoM0 satisfies the stack invariants. -/
theorem isoM0_inv : StackInv isoM0 := by
  refine ⟨?_, ?_, rfl⟩
  · intro f
    cases f <;> rfl
  · intro h hh
    simp only [isoM0, List.mem_singleton] at hh
    rw [hh]
    norm_num

/-- Witness for C5: both cases exercised at concrete inputs (append at
zmin = 9999, interior at zmin = 5, each of thickness 2 into isoM0). -/
theorem c5_total_depth_cases_witness :
    (StackInv isoM0 ∧ (0:ℚ) < 2 ∧ isoM0.HArr ≠ [] ∧ isoM0.totalDepth ≤ 9999 ∧
      (0:ℚ) < 5 ∧ (5:ℚ) + 2 ≤ isoM0.totalDepth) ∧
    (∃ m2, isoM0.addlayerIso 2 4 (some 4) (some 7) (some 7) (some 1) (some 3)
        200 100 0 0 1 1 9999 = .ok m2 ∧
      m2.totalDepth = isoM0.totalDepth + 2 ∧ GoodStack m2) ∧
    (∃ m2, isoM0.addlayerIso 2 4 (some 4) (some 7) (some 7) (some 1) (some 3)
        200 100 0 0 1 1 5 = .ok m2 ∧
      m2.totalDepth = max isoM0.totalDepth (5 + 2) ∧ GoodStack m2) :=
  ⟨⟨isoM0_inv, by norm_num, by with_unfolding_all decide,
      of_decide_eq_true (by with_unfolding_all rfl), by norm_num,
      of_decide_eq_true (by with_unfolding_all rfl)⟩,
    (c5_total_depth_cases isoM0 2 4 4 7 7 1 3 200 100 0 0 1 1 9999 isoM0_inv
        (by norm_num)).1 (by with_unfolding_all decide)
      (of_decide_eq_true (by with_unfolding_all rfl)),
    (c5_total_depth_cases isoM0 2 4 4 7 7 1 3 200 100 0 0 1 1 5 isoM0_inv
        (by norm_num)).2 (by norm_num)
      (of_decide_eq_true (by with_unfolding_all rfl))⟩

theorem getD_mem (l : List ℚ) (i : ℕ) (h1 : i < l.length) : l.getD i 0 ∈ l := by
  rw [List.getD_eq_getElem?_getD, List.getElem?_eq_getElem h1]
  exact List.getElem_mem h1

theorem zipWith_getD (g : ℚ → ℚ → ℚ) (a b : List ℚ) (i : ℕ)
    (h1 : i < a.length) (h2 : i < b.length) :
    (List.zipWith g a b).getD i 0 = g (a.getD i 0) (b.getD i 0) := by
  rw [List.getD_eq_getElem?_getD, List.getElem?_zipWith,
    List.getElem?_eq_getElem h1, List.getElem?_eq_getElem h2,
    List.getD_eq_getElem?_getD, List.getD_eq_getElem?_getD,
    List.getElem?_eq_getElem h1, List.getElem?_eq_getElem h2]
  rfl

theorem topArr_getD_sub {F : Type} (m : Stack1d F) (i : ℕ)
    (h1 : i < m.DepthArr.length) (h2 : i < m.HArr.length) :
    m.topArr.getD i 0 = m.DepthArr.getD i 0 - m.HArr.getD i 0 :=
  zipWith_getD _ m.DepthArr m.HArr i h1 h2

theorem takeWhile_congr_mem (p q : ℚ → Bool) (l : List ℚ)
    (h : ∀ x ∈ l, p x = q x) : l.takeWhile p = l.takeWhile q := by
  induction l with
  | nil => rfl
  | cons x xs ih =>
    rw [List.takeWhile_cons, List.takeWhile_cons, h x (by simp)]
    cases q x with
    | true => rw [ih (fun y hy => h y (by simp [hy]))]
    | false => rfl

/-- When z is not an entry, the at-most and below counts agree. -/
theorem countLe_eq_countLt (z : ℚ) (l : List ℚ) (h : ∀ x ∈ l, x ≠ z) :
    countLe z l = countLt z l := by
  unfold countLe countLt
  rw [takeWhile_congr_mem _ _ l]
  intro x hx
  by_cases hlt : x < z
  · simp [hlt, le_of_lt hlt]
  · have hle : ¬ x ≤ z := fun hle => hlt (lt_of_le_of_ne hle (h x hx))
    simp [hlt, hle]

theorem sorted_getD_le (l : List ℚ) (hs : l.Pairwise (fun a b => a < b))
    (i j : ℕ) (hij : i ≤ j) (hj : j < l.length) : l.getD i 0 ≤ l.getD j 0 := by
  rcases Nat.lt_or_ge i j with hlt | hge
  · have := (List.pairwise_iff_getElem.mp hs) i j (by omega) hj hlt
    rw [List.getD_eq_getElem?_getD, List.getD_eq_getElem?_getD,
      List.getElem?_eq_getElem (by omega : i < l.length), List.getElem?_eq_getElem hj]
    exact le_of_lt this
  · have : i = j := by omega
    rw [this]

theorem any_eq_iff_mem (l : List ℚ) (z : ℚ) :
    l.any (fun t => decide (t = z)) = true ↔ ∃ t ∈ l, t = z := by
  rw [List.any_eq_true]
  constructor
  · rintro ⟨t, ht, hd⟩
    exact ⟨t, ht, by simpa using hd⟩
  · rintro ⟨t, ht, hd⟩
    exact ⟨t, ht, by simpa using hd⟩

/-- The scaled state of a perturb branch: lengths, thickness and depth are
those of the input, one column is multiplied under the mask. -/
theorem scaled_state_facts {F : Type} [DecidableEq F] (m : Stack1d F) (f : F)
    (mask : List Bool) (c : ℚ) (hInv : StackInv m) (hmask : mask.length = m.HArr.length) :
    StackInv (m.updCol f (scaleMasked mask c (m.col f))) ∧
    (m.updCol f (scaleMasked mask c (m.col f))).HArr = m.HArr ∧
    (m.updCol f (scaleMasked mask c (m.col f))).DepthArr = m.DepthArr ∧
    (m.updCol f (scaleMasked mask c (m.col f))).totalDepth = m.totalDepth ∧
    (∀ g : F, g ≠ f → (m.updCol f (scaleMasked mask c (m.col f))).col g = m.col g) ∧
    (m.updCol f (scaleMasked mask c (m.col f))).col f
      = scaleMasked mask c (m.col f) := by
  refine ⟨⟨?_, hInv.2.1, hInv.2.2⟩, rfl, rfl, rfl, ?_, ?_⟩
  · intro g
    show (if g = f then scaleMasked mask c (m.col f) else m.col g).length = _
    by_cases hg : g = f
    · rw [if_pos hg, scaleMasked, List.length_zipWith, hInv.1 f, hmask]
      show min _ _ = (m.updCol f _).HArr.length
      rw [Stack1d.updCol]
      simp
    · rw [if_neg hg]
      exact hInv.1 g
  · intro g hg
    show (if g = f then _ else m.col g) = m.col g
    rw [if_neg hg]
  · show (if f = f then scaleMasked mask c (m.col f) else m.col f) = _
    rw [if_pos rfl]

theorem scaleMasked_getD (mask : List Bool) (c : ℚ) (l : List ℚ) (i : ℕ)
    (h1 : i < mask.length) (h2 : i < l.length) :
    (scaleMasked mask c l).getD i 0
      = if mask.getD i false then l.getD i 0 * c else l.getD i 0 := by
  rw [scaleMasked, List.getD_eq_getElem?_getD, List.getElem?_zipWith,
    List.getElem?_eq_getElem h1, List.getElem?_eq_getElem h2]
  rw [List.getD_eq_getElem?_getD mask, List.getElem?_eq_getElem h1,
    List.getD_eq_getElem?_getD l, List.getElem?_eq_getElem h2]
  rfl

/-! Helpers for the perturb pipeline. -/

theorem map_getD_bool (p : ℚ → Bool) (l : List ℚ) (i : ℕ) (hi : i < l.length) :
    (l.map p).getD i false = p (l.getD i 0) := by
  rw [List.getD_eq_getElem?_getD, List.getElem?_map,
    List.getElem?_eq_getElem hi, List.getD_eq_getElem?_getD,
    List.getElem?_eq_getElem hi]
  rfl

theorem zipWith_getD_bool (g : Bool → Bool → Bool) (a b : List Bool) (i : ℕ)
    (h1 : i < a.length) (h2 : i < b.length) :
    (List.zipWith g a b).getD i false = g (a.getD i false) (b.getD i false) := by
  rw [List.getD_eq_getElem?_getD, List.getElem?_zipWith,
    List.getElem?_eq_getElem h1, List.getElem?_eq_getElem h2,
    List.getD_eq_getElem?_getD, List.getD_eq_getElem?_getD,
    List.getElem?_eq_getElem h1, List.getElem?_eq_getElem h2]
  rfl

theorem npGet_nat (l : List ℚ) (k : ℕ) : npGet l (k : ℤ) = l[k]? := by
  rw [npGet, if_pos (Int.natCast_nonneg k), Int.toNat_natCast]
  exact List.get?_eq_getElem? l k

theorem head?_eq_getD (l : List ℚ) (hne : l ≠ []) : l.head? = some (l.getD 0 0) := by
  cases l with
  | nil => exact absurd rfl hne
  | cons x xs => rfl

theorem sorted_getD_lt (l : List ℚ) (hs : l.Pairwise (fun a b => a < b))
    (i j : ℕ) (hij : i < j) (hj : j < l.length) : l.getD i 0 < l.getD j 0 := by
  have := (List.pairwise_iff_getElem.mp hs) i j (by omega) hj hij
  rw [List.getD_eq_getElem?_getD, List.getD_eq_getElem?_getD,
    List.getElem?_eq_getElem (by omega : i < l.length), List.getElem?_eq_getElem hj]
  exact this

/-- On a strictly increasing list, the entries at most the i-th one are
exactly the first i+1. -/
theorem countLe_getD (l : List ℚ) (hs : l.Pairwise (fun a b => a < b))
    (i : ℕ) (hi : i < l.length) : countLe (l.getD i 0) l = i + 1 := by
  have h1 : i < countLe (l.getD i 0) l := (countLe_iff _ l hs i hi).mpr le_rfl
  have h2 : ¬ (i + 1 < countLe (l.getD i 0) l) := by
    by_cases hin : i + 1 < l.length
    · rw [countLe_iff _ l hs (i+1) hin]
      exact not_le.mpr (sorted_getD_lt l hs i (i+1) (by omega) hin)
    · have := countLe_le_length (l.getD i 0) l
      omega
  omega

theorem StackInv.depth_ne_nil {F : Type} {m : Stack1d F} (h : StackInv m)
    (hne : m.HArr ≠ []) : m.DepthArr ≠ [] := by
  intro hD
  have hl := h.depth_length
  rw [hD] at hl
  exact hne (List.length_eq_zero.mp hl.symm)

theorem StackInv.total_pos {F : Type} {m : Stack1d F} (h : StackInv m)
    (hne : m.HArr ≠ []) : 0 < m.totalDepth := by
  have hn : 0 < m.HArr.length := List.length_pos.mpr hne
  rw [← h.depth_getD_last hne]
  exact h.depth_pos _ (getD_mem _ _ (by rw [h.depth_length]; omega))

theorem StackInv.depth_le_total {F : Type} {m : Stack1d F} (h : StackInv m)
    (i : ℕ) (hi : i < m.HArr.length) : m.DepthArr.getD i 0 ≤ m.totalDepth := by
  have hne : m.HArr ≠ [] := by
    intro h0
    rw [h0] at hi
    simp at hi
  rw [← h.depth_getD_last hne]
  exact sorted_getD_le m.DepthArr h.depth_pairwise i (m.HArr.length - 1) (by omega)
    (by rw [h.depth_length]; omega)

/-- Every layer top is strictly above the stack bottom: topArr[i] is less
than the total depth. -/
theorem StackInv.topArr_lt_total {F : Type} {m : Stack1d F} (h : StackInv m)
    (i : ℕ) (hi : i < m.HArr.length) : m.topArr.getD i 0 < m.totalDepth := by
  have hD : i < m.DepthArr.length := by rw [h.depth_length]; exact hi
  rw [topArr_getD_sub m i hD hi]
  have h1 : m.DepthArr.getD i 0 ≤ m.totalDepth := h.depth_le_total i hi
  have h2 : 0 < m.HArr.getD i 0 := h.2.1 _ (getD_mem _ _ hi)
  linarith

/-- Reading every column at a valid nonnegative index succeeds and yields
the stored values, scaled on the scale set. -/
theorem readArgs_some {F : Type} [DecidableEq F] [Fintype F] (m : Stack1d F)
    (scaled : F → Bool) (c : ℚ) (k : ℕ) (hk : ∀ f : F, k < (m.col f).length) :
    readArgs m scaled c (k : ℤ)
      = some (fun f => (m.col f).getD k 0 * (if scaled f then c else 1)) := by
  have hsome : ∀ f : F, npGet (m.col f) (k : ℤ) = some ((m.col f).getD k 0) := by
    intro f
    rw [npGet_nat, getElem?_eq_some_getD _ _ (hk f)]
  rw [readArgs, dif_pos (fun f => by rw [hsome f]; rfl)]
  congr 1
  funext g
  congr 1
  exact Option.get_of_mem _ (Option.mem_def.mpr (hsome g))

/-- Reading at an index past some column raises IndexError (readArgs none). -/
theorem readArgs_none {F : Type} [DecidableEq F] [Fintype F] (m : Stack1d F)
    (scaled : F → Bool) (c : ℚ) (k : ℕ) (g : F) (hg : (m.col g).length ≤ k) :
    readArgs m scaled c (k : ℤ) = none := by
  rw [readArgs, dif_neg]
  intro hall
  have hsome := hall g
  rw [npGet_nat, List.getElem?_eq_none hg] at hsome
  simp at hsome

/-- The rebuilt stack of an interior insertion holds strictly more than the
preserved prefix. -/
theorem interiorResult_length_ge {F : Type} (m : Stack1d F) (newH : ℚ)
    (newv : F → ℚ) (zmin : ℚ) (hInv : StackInv m) :
    countLe zmin m.DepthArr < (interiorResult m newH newv zmin).HArr.length := by
  have h1 : countLe zmin m.DepthArr ≤ m.HArr.length := by
    have := countLe_le_length zmin m.DepthArr
    rw [hInv.depth_length] at this
    omega
  rw [interiorResult]
  simp only [List.length_append, List.length_take, List.length_cons,
    List.length_drop]
  rw [apply_ite (List.length (α := ℚ)), apply_ite (List.length (α := ℚ))]
  simp only [List.length_singleton, List.length_nil]
  split <;> split <;> omega

/-- topFragInfo when zmin coincides with some layer top: no top fragment. -/
theorem topFragInfo_aligned {F : Type} (m : Stack1d F) (zmin : ℚ)
    (h : ∃ t ∈ m.topArr, t = zmin) :
    topFragInfo m zmin = .ok none := by
  rw [topFragInfo, if_pos ((any_eq_iff_mem m.topArr zmin).mpr h)]

/-- topFragInfo when zmin falls strictly inside a layer: the fragment runs
from zmin up to the next layer top above zmin, and the recorded index is
one less than the first index whose top is at least zmin. -/
theorem topFragInfo_ok {F : Type} (m : Stack1d F) (zmin : ℚ) (hInv : StackInv m)
    (hnal : ∀ t ∈ m.topArr, t ≠ zmin)
    (hkt : countLt zmin m.topArr < m.HArr.length) :
    topFragInfo m zmin = .ok (some
      (m.topArr.getD (countLt zmin m.topArr) 0 - zmin,
        (countLt zmin m.topArr : ℤ) - 1, zmin)) := by
  have hlen := hInv.topArr_length
  set kt := countLt zmin m.topArr with hkt0
  have hany : ¬ (m.topArr.any (fun t => decide (t = zmin)) = true) := by
    rw [any_eq_iff_mem]
    rintro ⟨t, ht, rfl⟩
    exact hnal t ht rfl
  have hcnt : countLe zmin m.topArr = kt := countLe_eq_countLt zmin m.topArr hnal
  have hGT : m.topArr.map (fun t => decide (zmin < t))
      = List.replicate kt false ++ List.replicate (m.topArr.length - kt) true := by
    rw [mask_gt_shape zmin m.topArr hInv.topArr_pairwise, hcnt]
  have hGE : m.topArr.map (fun t => decide (zmin ≤ t))
      = List.replicate kt false ++ List.replicate (m.topArr.length - kt) true :=
    mask_ge_shape zmin m.topArr hInv.topArr_pairwise
  have hfw : firstWhere (m.topArr.map (fun t => decide (zmin < t))) m.topArr
      = some (m.topArr.getD kt 0) := by
    rw [hGT, firstWhere_suffix_mask kt _ m.topArr (by omega),
      getElem?_eq_some_getD m.topArr kt (by omega)]
  have hidx : idxFirst (m.topArr.map (fun t => decide (zmin ≤ t))) = some kt := by
    rw [hGE, idxFirst_suffix_mask, if_neg (by omega)]
  rw [topFragInfo, if_neg hany]
  simp only [hfw, hidx]

/-- topFragInfo when zmin is at or beyond every layer top and on no layer
top: the numpy read raises IndexError before any branch runs, the state
untouched. -/
theorem topFragInfo_err {F : Type} (m : Stack1d F) (zmin : ℚ) (hInv : StackInv m)
    (hnal : ∀ t ∈ m.topArr, t ≠ zmin)
    (hkt : countLt zmin m.topArr = m.HArr.length) :
    topFragInfo m zmin = .error (.indexError, m) := by
  have hlen := hInv.topArr_length
  have hany : ¬ (m.topArr.any (fun t => decide (t = zmin)) = true) := by
    rw [any_eq_iff_mem]
    rintro ⟨t, ht, rfl⟩
    exact hnal t ht rfl
  have hcnt : countLe zmin m.topArr = countLt zmin m.topArr :=
    countLe_eq_countLt zmin m.topArr hnal
  have hGT : m.topArr.map (fun t => decide (zmin < t))
      = List.replicate (countLt zmin m.topArr) false
        ++ List.replicate (m.topArr.length - countLt zmin m.topArr) true := by
    rw [mask_gt_shape zmin m.topArr hInv.topArr_pairwise, hcnt]
  have hGE : m.topArr.map (fun t => decide (zmin ≤ t))
      = List.replicate (countLt zmin m.topArr) false
        ++ List.replicate (m.topArr.length - countLt zmin m.topArr) true :=
    mask_ge_shape zmin m.topArr hInv.topArr_pairwise
  have hfw : firstWhere (m.topArr.map (fun t => decide (zmin < t))) m.topArr
      = none := by
    rw [hGT]
    unfold firstWhere
    rw [filt_suffix_mask]
    rw [show m.topArr.length - countLt zmin m.topArr = 0 by omega]
    simp
  have hidx : idxFirst (m.topArr.map (fun t => decide (zmin ≤ t))) = none := by
    rw [hGE, idxFirst_suffix_mask, if_pos (by omega)]
  rw [topFragInfo, if_neg hany]
  simp only [hfw, hidx]

/-- botFragInfo when zmax coincides with some layer bottom: no bottom
fragment. -/
theorem botFragInfo_aligned {F : Type} (m : Stack1d F) (zmax : ℚ)
    (h : ∃ b ∈ m.DepthArr, b = zmax) :
    botFragInfo m zmax = .ok none := by
  rw [botFragInfo, if_pos ((any_eq_iff_mem m.DepthArr zmax).mpr h)]

/-- botFragInfo when zmax is strictly above the first layer bottom: the
fragment covers depth 0 to zmax and the call reads layer 0. -/
theorem botFragInfo_above {F : Type} (m : Stack1d F) (zmax : ℚ)
    (hne : m.DepthArr ≠ [])
    (hnal : ∀ b ∈ m.DepthArr, b ≠ zmax)
    (hlt : zmax < m.DepthArr.getD 0 0) :
    botFragInfo m zmax = .ok (some (zmax, 0, 0)) := by
  have hany : ¬ (m.DepthArr.any (fun b => decide (b = zmax)) = true) := by
    rw [any_eq_iff_mem]
    rintro ⟨b, hb, rfl⟩
    exact hnal b hb rfl
  rw [botFragInfo, if_neg hany]
  simp only [head?_eq_getD m.DepthArr hne]
  rw [if_pos hlt]

/-- botFragInfo when zmax is at or past the first layer bottom and on no
boundary: the fragment runs from the last layer bottom below zmax to zmax,
and the insertion index is the count of bottoms below zmax. -/
theorem botFragInfo_in {F : Type} (m : Stack1d F) (zmax : ℚ) (hInv : StackInv m)
    (hne : m.HArr ≠ [])
    (hnal : ∀ b ∈ m.DepthArr, b ≠ zmax)
    (hge : ¬ zmax < m.DepthArr.getD 0 0) :
    botFragInfo m zmax = .ok (some
      (zmax - m.DepthArr.getD (countLt zmax m.DepthArr - 1) 0,
        countLt zmax m.DepthArr,
        m.DepthArr.getD (countLt zmax m.DepthArr - 1) 0)) := by
  have hDlen : m.DepthArr.length = m.HArr.length := hInv.depth_length
  have hDne : m.DepthArr ≠ [] := hInv.depth_ne_nil hne
  have hn : 0 < m.DepthArr.length := List.length_pos.mpr hDne
  set kb := countLt zmax m.DepthArr with hkb0
  have hkb_pos : 0 < kb := by
    have h0mem : m.DepthArr.getD 0 0 ∈ m.DepthArr := getD_mem _ 0 hn
    have h0lt : m.DepthArr.getD 0 0 < zmax :=
      lt_of_le_of_ne (not_lt.mp hge) (hnal _ h0mem)
    have := (countLt_iff zmax m.DepthArr hInv.depth_pairwise 0 hn).mpr h0lt
    omega
  have hkb_le : kb ≤ m.DepthArr.length := countLt_le_length zmax m.DepthArr
  have hany : ¬ (m.DepthArr.any (fun b => decide (b = zmax)) = true) := by
    rw [any_eq_iff_mem]
    rintro ⟨b, hb, rfl⟩
    exact hnal b hb rfl
  have hLT : m.DepthArr.map (fun b => decide (b < zmax))
      = List.replicate kb true
        ++ List.replicate (m.DepthArr.length - kb) false :=
    mask_lt_shape zmax m.DepthArr hInv.depth_pairwise
  have hLE : m.DepthArr.map (fun b => decide (b ≤ zmax))
      = List.replicate kb true
        ++ List.replicate (m.DepthArr.length - kb) false := by
    rw [mask_le_shape zmax m.DepthArr hInv.depth_pairwise,
      countLe_eq_countLt zmax m.DepthArr hnal]
  have hlw : lastWhere (m.DepthArr.map (fun b => decide (b < zmax))) m.DepthArr
      = some (m.DepthArr.getD (kb - 1) 0) := by
    rw [hLT, lastWhere_prefix_mask kb _ m.DepthArr hkb_pos hkb_le,
      getElem?_eq_some_getD m.DepthArr (kb-1) (by omega)]
  have hil : idxLast (m.DepthArr.map (fun b => decide (b ≤ zmax)))
      = some (kb - 1) := by
    rw [hLE, idxLast_prefix_mask, if_neg (by omega)]
  rw [botFragInfo, if_neg hany]
  simp only [head?_eq_getD m.DepthArr hDne]
  rw [if_neg hge]
  simp only [hlw, hil]
  rw [show kb - 1 + 1 = kb by omega]

/-- A variant addlayer that agrees with the shared dispatch away from the
append branch runs the interior insertion when the range sits strictly
inside the stack. -/
theorem addl_interior_ok {F : Type} [DecidableEq F] [Fintype F]
    (addl : Stack1d F → ℚ → (F → ℚ) → ℚ → Except (PyErr × Stack1d F) (Stack1d F))
    (haddl : ∀ (s : Stack1d F) (Hn : ℚ) (v : F → ℚ) (z : ℚ),
      s.DepthArr ≠ [] → ¬ s.totalDepth ≤ z → addl s Hn v z = addlayerRaw s Hn v z)
    (s : Stack1d F) (Hn z : ℚ) (v : F → ℚ)
    (hInv : StackInv s) (h0 : 0 < z) (hH : 0 < Hn) (hle : z + Hn ≤ s.totalDepth) :
    addl s Hn v z = .ok (interiorResult s Hn v z) := by
  have hne : s.HArr ≠ [] := hInv.ne_nil_of_total_pos (by linarith)
  have hDne : s.DepthArr ≠ [] := hInv.depth_ne_nil hne
  rw [haddl s Hn v z hDne (by simp only [not_le]; linarith),
    addlayerRaw_interior s Hn v z hDne (by simp only [not_le]; linarith)
      (by simp only [not_le]; linarith),
    interiorCore_ok s Hn z v hInv hInv.1 h0 hH hle]

/-- A variant addlayer that agrees with the shared dispatch away from the
append branch runs the prepend insertion at z = 0 with a thickness below
the total depth. -/
theorem addl_prepend_ok {F : Type} [DecidableEq F] [Fintype F]
    (addl : Stack1d F → ℚ → (F → ℚ) → ℚ → Except (PyErr × Stack1d F) (Stack1d F))
    (haddl : ∀ (s : Stack1d F) (Hn : ℚ) (v : F → ℚ) (z : ℚ),
      s.DepthArr ≠ [] → ¬ s.totalDepth ≤ z → addl s Hn v z = addlayerRaw s Hn v z)
    (s : Stack1d F) (Hn : ℚ) (v : F → ℚ)
    (hInv : StackInv s) (hH : 0 < Hn) (hlt : Hn < s.totalDepth) :
    addl s Hn v 0 = prependCore s Hn v := by
  have hne : s.HArr ≠ [] := hInv.ne_nil_of_total_pos (by linarith)
  have hDne : s.DepthArr ≠ [] := hInv.depth_ne_nil hne
  rw [haddl s Hn v 0 hDne (by simp only [not_le]; linarith),
    addlayerRaw_prepend s Hn v 0 hDne (by simp only [not_le]; linarith) le_rfl]

/-- The masked multiply keeps the invariants, the thickness and depth
arrays, the total depth and every other column, and multiplies the named
column by 1 + dm exactly on the fully-inside layers. -/
theorem scaledState_facts {F : Type} [DecidableEq F] (m : Stack1d F) (f : F)
    (dm zmin zmax : ℚ) (hInv : StackInv m) :
    StackInv (scaledState m f dm zmin zmax) ∧
    (scaledState m f dm zmin zmax).HArr = m.HArr ∧
    (scaledState m f dm zmin zmax).DepthArr = m.DepthArr ∧
    (scaledState m f dm zmin zmax).totalDepth = m.totalDepth ∧
    (∀ g : F, g ≠ f → (scaledState m f dm zmin zmax).col g = m.col g) ∧
    ∀ i : ℕ, i < m.HArr.length → zmin ≤ topOf m i → depthOf m i ≤ zmax →
      ((scaledState m f dm zmin zmax).col f).getD i 0
        = (m.col f).getD i 0 * (1 + dm) := by
  have hTlen : m.topArr.length = m.HArr.length := hInv.topArr_length
  have hDlen : m.DepthArr.length = m.HArr.length := hInv.depth_length
  have hmasklen : (List.zipWith and
      (m.topArr.map (fun t => decide (zmin ≤ t)))
      (m.DepthArr.map (fun b => decide (b ≤ zmax)))).length = m.HArr.length := by
    rw [List.length_zipWith, List.length_map, List.length_map, hTlen, hDlen]
    simp
  obtain ⟨h1, h2, h3, h4, h5, h6⟩ :=
    scaled_state_facts m f (List.zipWith and
      (m.topArr.map (fun t => decide (zmin ≤ t)))
      (m.DepthArr.map (fun b => decide (b ≤ zmax)))) (1 + dm) hInv hmasklen
  refine ⟨h1, h2, h3, h4, h5, ?_⟩
  intro i hi hti hbi
  have hti2 : zmin ≤ m.topArr.getD i 0 := by
    rw [topArr_getD_sub m i (by rw [hDlen]; exact hi) hi]
    exact hti
  have hbi2 : m.DepthArr.getD i 0 ≤ zmax := hbi
  have hmaskT : (List.zipWith and
      (m.topArr.map (fun t => decide (zmin ≤ t)))
      (m.DepthArr.map (fun b => decide (b ≤ zmax)))).getD i false = true := by
    rw [zipWith_getD_bool and _ _ i (by rw [List.length_map, hTlen]; exact hi)
      (by rw [List.length_map, hDlen]; exact hi),
      map_getD_bool _ _ i (by rw [hTlen]; exact hi),
      map_getD_bool _ _ i (by rw [hDlen]; exact hi)]
    simp only [Bool.and_eq_true, decide_eq_true_eq]
    exact ⟨hti2, hbi2⟩
  rw [scaledState, h6, scaleMasked_getD _ _ _ i (by rw [hmasklen]; exact hi)
    (by rw [hInv.1 f]; exact hi), if_pos hmaskT]

/-- Master analysis of the top-boundary call: on an invariant-satisfying
state whose total depth matches the original model's, every exit carries an
invariant-satisfying state; on success the total depth is unchanged and
every layer of the input state whose top is at least zmin and coincides
with an original layer top survives at some index with every column, its
thickness and its bottom depth unchanged. -/
theorem topStep_master {F : Type} [DecidableEq F] [Fintype F]
    (addl : Stack1d F → ℚ → (F → ℚ) → ℚ → Except (PyErr × Stack1d F) (Stack1d F))
    (scaledT : F → Bool) (dm zmin : ℚ) (f0 : F)
    (m s2 : Stack1d F) (tinfo : Option (ℚ × ℤ × ℚ))
    (haddl : ∀ (s : Stack1d F) (Hn : ℚ) (v : F → ℚ) (z : ℚ),
      s.DepthArr ≠ [] → ¬ s.totalDepth ≤ z → addl s Hn v z = addlayerRaw s Hn v z)
    (hInv : StackInv m) (hne : m.HArr ≠ []) (hzmin : 0 ≤ zmin)
    (hInv2 : StackInv s2) (htot2 : s2.totalDepth = m.totalDepth)
    (htinfo : tinfo = none ∨
      (tinfo = some (m.topArr.getD (countLt zmin m.topArr) 0 - zmin,
          (countLt zmin m.topArr : ℤ) - 1, zmin) ∧
        (∀ t ∈ m.topArr, t ≠ zmin) ∧ countLt zmin m.topArr < m.HArr.length)) :
    StackInv (outState (topStep addl scaledT dm s2 tinfo)) ∧
    ∀ m3, topStep addl scaledT dm s2 tinfo = .ok m3 →
      m3.totalDepth = s2.totalDepth ∧
      ∀ i, i < s2.HArr.length →
        zmin ≤ s2.DepthArr.getD i 0 - s2.HArr.getD i 0 →
        (s2.DepthArr.getD i 0 - s2.HArr.getD i 0) ∈ m.topArr →
        ∃ j, j < m3.HArr.length ∧ m3.HArr.getD j 0 = s2.HArr.getD i 0 ∧
          m3.DepthArr.getD j 0 = s2.DepthArr.getD i 0 ∧
          ∀ g : F, (m3.col g).getD j 0 = (s2.col g).getD i 0 := by
  rcases htinfo with rfl | ⟨rfl, hnalT, hklt⟩
  · refine ⟨hInv2, ?_⟩
    intro m3 hm3
    have hm3' : Except.ok (ε := PyErr × Stack1d F) s2 = .ok m3 := hm3
    injection hm3' with h
    subst h
    exact ⟨rfl, fun i hi _ _ => ⟨i, hi, rfl, rfl, fun g => rfl⟩⟩
  · set kt := countLt zmin m.topArr with hktdef
    have hTlen : m.topArr.length = m.HArr.length := hInv.topArr_length
    have hnpos : 0 < m.HArr.length := List.length_pos.mpr hne
    have hzmin0 : 0 < zmin := by
      rcases lt_or_eq_of_le hzmin with h | h
      · exact h
      · exfalso
        refine hnalT (m.topArr.getD 0 0)
          (getD_mem _ _ (by rw [hTlen]; exact hnpos)) ?_
        rw [hInv.topArr_getD_zero hnpos, ← h]
    have hkt_pos : 0 < kt := by
      rw [hktdef]
      exact interior_kB_pos hInv hnpos hzmin0
    set T := m.topArr.getD kt 0 with hTdef
    have hTgt : zmin < T := by
      have h1 : ¬ (kt < countLt zmin m.topArr) := by omega
      rw [countLt_iff zmin m.topArr hInv.topArr_pairwise kt (by omega)] at h1
      push_neg at h1
      exact lt_of_le_of_ne h1 (Ne.symm (hnalT T (getD_mem _ _ (by omega))))
    have hTlt : T < m.totalDepth := hInv.topArr_lt_total kt hklt
    have hHtne : T - zmin ≠ 0 := ne_of_gt (by linarith)
    have hcast : (kt : ℤ) - 1 = ((kt - 1 : ℕ) : ℤ) := by omega
    by_cases hbnd : kt - 1 < s2.HArr.length
    · have hread : readArgs s2 scaledT (1 + dm) (((kt - 1 : ℕ) : ℤ))
          = some (fun g => (s2.col g).getD (kt - 1) 0
              * (if scaledT g then (1 + dm) else 1)) :=
        readArgs_some s2 scaledT (1 + dm) (kt - 1)
          (fun g => by rw [hInv2.1 g]; exact hbnd)
      have hle2 : zmin + (T - zmin) ≤ s2.totalDepth := by
        rw [htot2]
        linarith
      have hcall := addl_interior_ok addl haddl s2 (T - zmin) zmin
          (fun g => (s2.col g).getD (kt - 1) 0 * (if scaledT g then (1 + dm) else 1))
          hInv2 hzmin0 (by linarith) hle2
      have hres : topStep addl scaledT dm s2 (some (T - zmin, (kt : ℤ) - 1, zmin))
          = .ok (interiorResult s2 (T - zmin)
              (fun g => (s2.col g).getD (kt - 1) 0
                * (if scaledT g then (1 + dm) else 1)) zmin) := by
        simp only [topStep]
        rw [if_pos hHtne, hcast, hread]
        exact hcall
      rw [hres]
      obtain ⟨hInv3, htot3⟩ := interiorResult_inv s2 (T - zmin) zmin _ hInv2
        hzmin0 (by linarith) hle2
      refine ⟨hInv3, ?_⟩
      intro m3 hm3
      injection hm3 with h
      subst h
      refine ⟨htot3, ?_⟩
      intro i hi hti hmem
      have hTle : T ≤ s2.DepthArr.getD i 0 - s2.HArr.getD i 0 := by
        obtain ⟨l, hl, hleq⟩ := List.mem_iff_getElem.mp hmem
        have hlgetD : m.topArr.getD l 0
            = s2.DepthArr.getD i 0 - s2.HArr.getD i 0 := by
          rw [List.getD_eq_getElem?_getD, List.getElem?_eq_getElem hl]
          exact hleq
        have hlt_l : ¬ (l < kt) := by
          intro hlk
          have hcc := (countLt_iff zmin m.topArr hInv.topArr_pairwise l
            (by omega)).mp (by omega)
          rw [hlgetD] at hcc
          linarith
        rw [← hlgetD]
        exact sorted_getD_le m.topArr hInv.topArr_pairwise kt l (by omega) hl
      have hkBi : countLt (zmin + (T - zmin)) s2.topArr ≤ i := by
        by_contra hcon
        push_neg at hcon
        have hcc := (countLt_iff (zmin + (T - zmin)) s2.topArr hInv2.topArr_pairwise i
          (by rw [hInv2.topArr_length]; exact hi)).mp hcon
        rw [topArr_getD_sub s2 i (by rw [hInv2.depth_length]; exact hi) hi] at hcc
        linarith
      obtain ⟨j, hj, hjH, hjC, hjD⟩ := interiorResult_suffix s2 (T - zmin) zmin _
        hInv2 hzmin0 (by linarith) hle2 i hkBi hi
      exact ⟨j, hj, hjH, hjD, fun g => hjC g⟩
    · have hread : readArgs s2 scaledT (1 + dm) (((kt - 1 : ℕ) : ℤ)) = none :=
        readArgs_none s2 scaledT (1 + dm) (kt - 1) f0
          (by rw [hInv2.1 f0]; omega)
      have hres : topStep addl scaledT dm s2 (some (T - zmin, (kt : ℤ) - 1, zmin))
          = .error (.indexError, s2) := by
        simp only [topStep]
        rw [if_pos hHtne, hcast, hread]
      rw [hres]
      exact ⟨hInv2, fun m3 hm3 => Except.noConfusion hm3⟩

/-- Master analysis of a perturb datatype branch: on an invariant-satisfying
nonempty stack with a nonnegative depth range, every exit of runBranch
carries an invariant-satisfying state; on success the total depth is
unchanged and every layer fully inside the range survives at some index
with its thickness and bottom depth unchanged, the named column multiplied
by 1 + dm and every other column unchanged. -/
theorem runBranch_master {F : Type} [DecidableEq F] [Fintype F]
    (addl : Stack1d F → ℚ → (F → ℚ) → ℚ → Except (PyErr × Stack1d F) (Stack1d F))
    (scaledB scaledT : F → F → Bool)
    (m : Stack1d F) (dm zmin zmax : ℚ) (f : F)
    (tinfo : Option (ℚ × ℤ × ℚ)) (binfo : Option (ℚ × ℕ × ℚ))
    (haddl : ∀ (s : Stack1d F) (Hn : ℚ) (v : F → ℚ) (z : ℚ),
      s.DepthArr ≠ [] → ¬ s.totalDepth ≤ z → addl s Hn v z = addlayerRaw s Hn v z)
    (hInv : StackInv m) (hne : m.HArr ≠ [])
    (hzmin : 0 ≤ zmin) (hzmax : 0 ≤ zmax)
    (htinfo : tinfo = none ∨
      (tinfo = some (m.topArr.getD (countLt zmin m.topArr) 0 - zmin,
          (countLt zmin m.topArr : ℤ) - 1, zmin) ∧
        (∀ t ∈ m.topArr, t ≠ zmin) ∧ countLt zmin m.topArr < m.HArr.length))
    (hbinfo : binfo = none ∨
      (binfo = some (zmax, 0, 0) ∧ zmax < m.DepthArr.getD 0 0) ∨
      (binfo = some (zmax - m.DepthArr.getD (countLt zmax m.DepthArr - 1) 0,
          countLt zmax m.DepthArr, m.DepthArr.getD (countLt zmax m.DepthArr - 1) 0) ∧
        (∀ b ∈ m.DepthArr, b ≠ zmax) ∧ ¬ zmax < m.DepthArr.getD 0 0)) :
    StackInv (outState (runBranch addl scaledB scaledT m dm zmin zmax f tinfo binfo)) ∧
    ∀ m2, runBranch addl scaledB scaledT m dm zmin zmax f tinfo binfo = .ok m2 →
      m2.totalDepth = m.totalDepth ∧
      ∀ i : ℕ, fullyInside m zmin zmax i →
        ∃ j, j < m2.HArr.length ∧
          m2.HArr.getD j 0 = m.HArr.getD i 0 ∧
          m2.DepthArr.getD j 0 = m.DepthArr.getD i 0 ∧
          (m2.col f).getD j 0 = (m.col f).getD i 0 * (1 + dm) ∧
          ∀ g : F, g ≠ f → (m2.col g).getD j 0 = (m.col g).getD i 0 := by
  have hnpos : 0 < m.HArr.length := List.length_pos.mpr hne
  have hDlen : m.DepthArr.length = m.HArr.length := hInv.depth_length
  have hTlen : m.topArr.length = m.HArr.length := hInv.topArr_length
  have hrb : runBranch addl scaledB scaledT m dm zmin zmax f tinfo binfo
      = match bottomStep addl (scaledB f) dm (scaledState m f dm zmin zmax) binfo with
        | .error e => .error e
        | .ok m2 => topStep addl (scaledT f) dm m2 tinfo := rfl
  obtain ⟨hInv1, hH1, hD1, htot1, hcolg1, hcolf1⟩ :=
    scaledState_facts m f dm zmin zmax hInv
  set m1 := scaledState m f dm zmin zmax with hm1
  have hfinish : ∀ s2 : Stack1d F,
      bottomStep addl (scaledB f) dm m1 binfo = .ok s2 →
      StackInv s2 → s2.totalDepth = m.totalDepth →
      (∀ i : ℕ, fullyInside m zmin zmax i →
        i < s2.HArr.length ∧ s2.HArr.getD i 0 = m.HArr.getD i 0 ∧
        s2.DepthArr.getD i 0 = m.DepthArr.getD i 0 ∧
        (s2.col f).getD i 0 = (m.col f).getD i 0 * (1 + dm) ∧
        ∀ g : F, g ≠ f → (s2.col g).getD i 0 = (m.col g).getD i 0) →
      StackInv (outState (runBranch addl scaledB scaledT m dm zmin zmax f tinfo binfo)) ∧
      ∀ m2, runBranch addl scaledB scaledT m dm zmin zmax f tinfo binfo = .ok m2 →
        m2.totalDepth = m.totalDepth ∧
        ∀ i : ℕ, fullyInside m zmin zmax i →
          ∃ j, j < m2.HArr.length ∧
            m2.HArr.getD j 0 = m.HArr.getD i 0 ∧
            m2.DepthArr.getD j 0 = m.DepthArr.getD i 0 ∧
            (m2.col f).getD j 0 = (m.col f).getD i 0 * (1 + dm) ∧
            ∀ g : F, g ≠ f → (m2.col g).getD j 0 = (m.col g).getD i 0 := by
    intro s2 hbot hInv2 htot2 hmap
    have hR : runBranch addl scaledB scaledT m dm zmin zmax f tinfo binfo
        = topStep addl (scaledT f) dm s2 tinfo := by
      rw [hrb, hbot]
    obtain ⟨hSI, hOK⟩ := topStep_master addl (scaledT f) dm zmin f m s2 tinfo haddl
      hInv hne hzmin hInv2 htot2 htinfo
    rw [hR]
    refine ⟨hSI, ?_⟩
    intro m2 hm2
    obtain ⟨htotm3, htrack⟩ := hOK m2 hm2
    refine ⟨by rw [htotm3, htot2], ?_⟩
    intro i hFI
    obtain ⟨hi2, hiH, hiD, hicolf, hicolg⟩ := hmap i hFI
    obtain ⟨hiFI, htopFI, hbotFI⟩ := hFI
    have htop2 : zmin ≤ s2.DepthArr.getD i 0 - s2.HArr.getD i 0 := by
      rw [hiH, hiD]
      exact htopFI
    have hmem2 : (s2.DepthArr.getD i 0 - s2.HArr.getD i 0) ∈ m.topArr := by
      rw [hiH, hiD, ← topArr_getD_sub m i (by rw [hDlen]; exact hiFI) hiFI]
      exact getD_mem _ _ (by rw [hTlen]; exact hiFI)
    obtain ⟨j, hj, hjH, hjD, hjcol⟩ := htrack i hi2 htop2 hmem2
    refine ⟨j, hj, ?_, ?_, ?_, ?_⟩
    · rw [hjH, hiH]
    · rw [hjD, hiD]
    · rw [hjcol f, hicolf]
    · intro g hg
      rw [hjcol g, hicolg g hg]
  rcases hbinfo with rfl | ⟨rfl, hpreB⟩ | ⟨rfl, hnalB, hgeB⟩
  · refine hfinish m1 rfl hInv1 htot1 ?_
    rintro i ⟨hiFI, htopFI, hbotFI⟩
    exact ⟨by rw [hH1]; exact hiFI, by rw [hH1], by rw [hD1],
      hcolf1 i hiFI htopFI hbotFI, fun g hg => by rw [hcolg1 g hg]⟩
  · by_cases hz0 : zmax = 0
    · have hbot : bottomStep addl (scaledB f) dm m1 (some (zmax, 0, 0)) = .ok m1 := by
        simp only [bottomStep]
        rw [if_neg (by rw [hz0]; simp)]
      refine hfinish m1 hbot hInv1 htot1 ?_
      rintro i ⟨hiFI, htopFI, hbotFI⟩
      exact ⟨by rw [hH1]; exact hiFI, by rw [hH1], by rw [hD1],
        hcolf1 i hiFI htopFI hbotFI, fun g hg => by rw [hcolg1 g hg]⟩
    · have hz0' : 0 < zmax := lt_of_le_of_ne hzmax (Ne.symm hz0)
      have hlt1 : zmax < m1.totalDepth := by
        rw [htot1]
        exact lt_of_lt_of_le hpreB (hInv.depth_le_total 0 hnpos)
      set v0 := (fun g => (m1.col g).getD 0 0
          * (if scaledB f g then (1 + dm) else 1)) with hv0
      have hread : readArgs m1 (scaledB f) (1 + dm) (((0:ℕ) : ℤ)) = some v0 :=
        readArgs_some m1 (scaledB f) (1 + dm) 0
          (fun g => by rw [hInv1.1 g, hH1]; exact hnpos)
      obtain ⟨s2, heq2, hInv2, htot2, -, -⟩ :=
        prependCore_ok m1 zmax v0 hInv1 hz0' hlt1
      have hbot : bottomStep addl (scaledB f) dm m1 (some (zmax, 0, 0)) = .ok s2 := by
        simp only [bottomStep]
        rw [if_pos hz0]
        simp only [hread]
        rw [addl_prepend_ok addl haddl m1 zmax v0 hInv1 hz0' hlt1]
        exact heq2
      refine hfinish s2 hbot hInv2 (by rw [htot2, htot1]) ?_
      rintro i ⟨hiFI, htopFI, hbotFI⟩
      exfalso
      have hd0 : m.DepthArr.getD 0 0 ≤ m.DepthArr.getD i 0 :=
        sorted_getD_le m.DepthArr hInv.depth_pairwise 0 i (by omega)
          (by rw [hDlen]; exact hiFI)
      have hbi : m.DepthArr.getD i 0 ≤ zmax := hbotFI
      linarith
  · set kb := countLt zmax m.DepthArr with hkbdef
    set z2 := m.DepthArr.getD (kb - 1) 0 with hz2def
    have hD0lt : m.DepthArr.getD 0 0 < zmax :=
      lt_of_le_of_ne (not_lt.mp hgeB)
        (hnalB _ (getD_mem _ 0 (by rw [hDlen]; exact hnpos)))
    have hkb_pos : 0 < kb := by
      rw [hkbdef]
      have := (countLt_iff zmax m.DepthArr hInv.depth_pairwise 0
        (by rw [hDlen]; exact hnpos)).mpr hD0lt
      omega
    have hkb_le : kb ≤ m.HArr.length := by
      rw [hkbdef]
      have := countLt_le_length zmax m.DepthArr
      omega
    have hz2pos : 0 < z2 := by
      rw [hz2def]
      exact hInv.depth_pos _ (getD_mem _ _ (by rw [hDlen]; omega))
    have hz2lt : z2 < zmax := by
      have hcc := (countLt_iff zmax m.DepthArr hInv.depth_pairwise (kb - 1)
        (by rw [hDlen]; omega)).mp (by omega)
      rw [hz2def]
      exact hcc
    have hHbpos : (0:ℚ) < zmax - z2 := by linarith
    by_cases hkbn : kb < m.HArr.length
    · have hzmax_le : zmax ≤ m.totalDepth := by
        have h1 : ¬ (kb < countLt zmax m.DepthArr) := by omega
        rw [countLt_iff zmax m.DepthArr hInv.depth_pairwise kb
          (by rw [hDlen]; omega)] at h1
        push_neg at h1
        exact le_trans h1 (hInv.depth_le_total kb hkbn)
      set vB := (fun g => (m1.col g).getD kb 0
          * (if scaledB f g then (1 + dm) else 1)) with hvB
      have hread : readArgs m1 (scaledB f) (1 + dm) ((kb : ℕ) : ℤ) = some vB :=
        readArgs_some m1 (scaledB f) (1 + dm) kb
          (fun g => by rw [hInv1.1 g, hH1]; exact hkbn)
      have hle1 : z2 + (zmax - z2) ≤ m1.totalDepth := by
        rw [htot1]
        linarith
      have hcall := addl_interior_ok addl haddl m1 (zmax - z2) z2 vB
        hInv1 hz2pos hHbpos hle1
      have hbot : bottomStep addl (scaledB f) dm m1 (some (zmax - z2, kb, z2))
          = .ok (interiorResult m1 (zmax - z2) vB z2) := by
        simp only [bottomStep]
        rw [if_pos (ne_of_gt hHbpos)]
        simp only [hread]
        exact hcall
      obtain ⟨hInv2, htot2⟩ := interiorResult_inv m1 (zmax - z2) z2 vB
        hInv1 hz2pos hHbpos hle1
      have hkbeq : countLe z2 m1.DepthArr = kb := by
        rw [hD1, hz2def, countLe_getD m.DepthArr hInv.depth_pairwise (kb - 1)
          (by rw [hDlen]; omega)]
        omega
      refine hfinish _ hbot hInv2 (by rw [htot2, htot1]) ?_
      rintro i ⟨hiFI, htopFI, hbotFI⟩
      have hDi_lt : m.DepthArr.getD i 0 < zmax :=
        lt_of_le_of_ne hbotFI (hnalB _ (getD_mem _ _ (by rw [hDlen]; exact hiFI)))
      have hikb : i < kb := by
        rw [hkbdef]
        exact (countLt_iff zmax m.DepthArr hInv.depth_pairwise i
          (by rw [hDlen]; exact hiFI)).mpr hDi_lt
      obtain ⟨hpH, hpC, hpD⟩ := interiorResult_prefix m1 (zmax - z2) z2 vB hInv1 i
        (by rw [hkbeq]; exact hikb)
      have hlen2 : kb < (interiorResult m1 (zmax - z2) vB z2).HArr.length := by
        have := interiorResult_length_ge m1 (zmax - z2) vB z2 hInv1
        rw [hkbeq] at this
        exact this
      refine ⟨by omega, ?_, ?_, ?_, ?_⟩
      · rw [hpH, hH1]
      · rw [hpD, hD1]
      · rw [hpC f, hcolf1 i hiFI htopFI hbotFI]
      · intro g hg
        rw [hpC g, hcolg1 g hg]
    · have hread : readArgs m1 (scaledB f) (1 + dm) ((kb : ℕ) : ℤ) = none :=
        readArgs_none m1 (scaledB f) (1 + dm) kb f (by rw [hInv1.1 f, hH1]; omega)
      have hbot : bottomStep addl (scaledB f) dm m1 (some (zmax - z2, kb, z2))
          = .error (.indexError, m1) := by
        simp only [bottomStep]
        rw [if_pos (ne_of_gt hHbpos), hread]
      have hR : runBranch addl scaledB scaledT m dm zmin zmax f tinfo
          (some (zmax - z2, kb, z2)) = .error (.indexError, m1) := by
        rw [hrb, hbot]
      rw [hR]
      exact ⟨hInv1, fun m2 hm2 => Except.noConfusion hm2⟩

/-- Master analysis of perturb: on an invariant-satisfying nonempty stack
with a nonnegative depth range, and for a variant whose addlayer agrees
with the shared dispatch away from the append branch, every exit of
perturbCore carries an invariant-satisfying state; on success the total
depth is unchanged, and when a datatype branch ran, every layer fully
inside the range survives at some index with its thickness and bottom
depth unchanged, the named column multiplied by 1 + dm and every other
column unchanged. -/
theorem perturbCore_master {F : Type} [DecidableEq F] [Fintype F]
    (addl : Stack1d F → ℚ → (F → ℚ) → ℚ → Except (PyErr × Stack1d F) (Stack1d F))
    (reject : String → Bool) (parse : String → Option F)
    (scaledB scaledT : F → F → Bool)
    (m : Stack1d F) (dm zmin zmax : ℚ) (datatype : String)
    (haddl : ∀ (s : Stack1d F) (Hn : ℚ) (v : F → ℚ) (z : ℚ),
      s.DepthArr ≠ [] → ¬ s.totalDepth ≤ z → addl s Hn v z = addlayerRaw s Hn v z)
    (hInv : StackInv m) (hne : m.HArr ≠ [])
    (hzmin : 0 ≤ zmin) (hzmax : 0 ≤ zmax) :
    StackInv (outState (perturbCore addl reject parse scaledB scaledT
        m dm zmin zmax datatype)) ∧
    (∀ m2, perturbCore addl reject parse scaledB scaledT m dm zmin zmax datatype
        = .ok m2 → m2.totalDepth = m.totalDepth) ∧
    ∀ g m2, parse datatype = some g →
      perturbCore addl reject parse scaledB scaledT m dm zmin zmax datatype
        = .ok m2 →
      ∀ i : ℕ, fullyInside m zmin zmax i →
        ∃ j, j < m2.HArr.length ∧
          m2.HArr.getD j 0 = m.HArr.getD i 0 ∧
          m2.DepthArr.getD j 0 = m.DepthArr.getD i 0 ∧
          (m2.col g).getD j 0 = (m.col g).getD i 0 * (1 + dm) ∧
          ∀ g2 : F, g2 ≠ g → (m2.col g2).getD j 0 = (m.col g2).getD i 0 := by
  have hnpos : 0 < m.HArr.length := List.length_pos.mpr hne
  have hTlen : m.topArr.length = m.HArr.length := hInv.topArr_length
  have hDne : m.DepthArr ≠ [] := hInv.depth_ne_nil hne
  by_cases hdm : 1 < dm ∨ dm < -1
  · have hP : perturbCore addl reject parse scaledB scaledT m dm zmin zmax datatype
        = .error (.valueOutOfRange, m) := by
      rw [perturbCore, if_pos hdm]
    rw [hP]
    exact ⟨hInv, fun m2 hm2 => Except.noConfusion hm2,
      fun g m2 _ hm2 => Except.noConfusion hm2⟩
  by_cases hrej : reject datatype = true
  · have hP : perturbCore addl reject parse scaledB scaledT m dm zmin zmax datatype
        = .error (.valueIncompatible, m) := by
      rw [perturbCore, if_neg hdm, if_pos hrej]
    rw [hP]
    exact ⟨hInv, fun m2 hm2 => Except.noConfusion hm2,
      fun g m2 _ hm2 => Except.noConfusion hm2⟩
  have hT : topFragInfo m zmin = .error (.indexError, m) ∨
      ∃ tinfo, topFragInfo m zmin = .ok tinfo ∧
        (tinfo = none ∨
          (tinfo = some (m.topArr.getD (countLt zmin m.topArr) 0 - zmin,
              (countLt zmin m.topArr : ℤ) - 1, zmin) ∧
            (∀ t ∈ m.topArr, t ≠ zmin) ∧ countLt zmin m.topArr < m.HArr.length)) := by
    by_cases halT : ∃ t ∈ m.topArr, t = zmin
    · exact Or.inr ⟨none, topFragInfo_aligned m zmin halT, Or.inl rfl⟩
    · push_neg at halT
      by_cases hklt : countLt zmin m.topArr < m.HArr.length
      · exact Or.inr ⟨_, topFragInfo_ok m zmin hInv halT hklt,
          Or.inr ⟨rfl, halT, hklt⟩⟩
      · refine Or.inl (topFragInfo_err m zmin hInv halT ?_)
        have h := countLt_le_length zmin m.topArr
        rw [hTlen] at h
        omega
  rcases hT with htf | ⟨tinfo, htf, htinfo⟩
  · have hP : perturbCore addl reject parse scaledB scaledT m dm zmin zmax datatype
        = .error (.indexError, m) := by
      rw [perturbCore, if_neg hdm, if_neg hrej, htf]
    rw [hP]
    exact ⟨hInv, fun m2 hm2 => Except.noConfusion hm2,
      fun g m2 _ hm2 => Except.noConfusion hm2⟩
  have hB : ∃ binfo, botFragInfo m zmax = .ok binfo ∧
      (binfo = none ∨
        (binfo = some (zmax, 0, 0) ∧ zmax < m.DepthArr.getD 0 0) ∨
        (binfo = some (zmax - m.DepthArr.getD (countLt zmax m.DepthArr - 1) 0,
            countLt zmax m.DepthArr,
            m.DepthArr.getD (countLt zmax m.DepthArr - 1) 0) ∧
          (∀ b ∈ m.DepthArr, b ≠ zmax) ∧ ¬ zmax < m.DepthArr.getD 0 0)) := by
    by_cases halB : ∃ b ∈ m.DepthArr, b = zmax
    · exact ⟨none, botFragInfo_aligned m zmax halB, Or.inl rfl⟩
    · push_neg at halB
      by_cases hpre : zmax < m.DepthArr.getD 0 0
      · exact ⟨_, botFragInfo_above m zmax hDne halB hpre,
          Or.inr (Or.inl ⟨rfl, hpre⟩)⟩
      · exact ⟨_, botFragInfo_in m zmax hInv hne halB hpre,
          Or.inr (Or.inr ⟨rfl, halB, hpre⟩)⟩
  obtain ⟨binfo, hbf, hbinfo⟩ := hB
  cases hparse : parse datatype with
  | none =>
    have hP : perturbCore addl reject parse scaledB scaledT m dm zmin zmax datatype
        = .ok m := by
      rw [perturbCore, if_neg hdm, if_neg hrej, htf, hbf, hparse]
    rw [hP]
    refine ⟨hInv, ?_, ?_⟩
    · intro m2 hm2
      injection hm2 with h
      subst h
      rfl
    · intro g m2 hg _
      exact Option.noConfusion hg
  | some f =>
    have hP : perturbCore addl reject parse scaledB scaledT m dm zmin zmax datatype
        = runBranch addl scaledB scaledT m dm zmin zmax f tinfo binfo := by
      rw [perturbCore, if_neg hdm, if_neg hrej, htf, hbf, hparse]
    obtain ⟨h1, h2⟩ := runBranch_master addl scaledB scaledT m dm zmin zmax f
      tinfo binfo haddl hInv hne hzmin hzmax htinfo hbinfo
    rw [hP]
    refine ⟨h1, fun m2 hm2 => (h2 m2 hm2).1, ?_⟩
    intro g m2 hg hm2
    injection hg with hgf
    subst hgf
    exact (h2 m2 hm2).2

/-- The example model tiM1 satisfies the stack invariants. -/
theorem tiM1_inv : StackInv tiM1 := by
  refine ⟨?_, ?_, rfl⟩
  · intro f
    cases f <;> rfl
  · intro h hh
    simp only [tiM1, List.mem_singleton] at hh
    rw [hh]
    norm_num

/-- The example model isoM3 satisfies the stack invariants. -/
theorem isoM3_inv : StackInv isoM3 := by
  refine ⟨?_, ?_, rfl⟩
  · intro f
    cases f <;> rfl
  · intro h hh
    simp only [isoM3, List.mem_cons, List.not_mem_nil, or_false] at hh
    rcases hh with rfl | rfl | rfl <;> norm_num

/-- The example model tiM3 satisfies the stack invariants. -/
theorem tiM3_inv : StackInv tiM3 := by
  refine ⟨?_, ?_, rfl⟩
  · intro f
    cases f <;> rfl
  · intro h hh
    simp only [tiM3, List.mem_cons, List.not_mem_nil, or_false] at hh
    rcases hh with rfl | rfl <;> norm_num

/-- C1 corrected: the invariants are not preserved unconditionally (see the
counterexample: the transverse-isotropic append, a nonpositive thickness
and an interior overshoot all break them), but they are preserved by every
isotropic addlayer branch under that branch's preconditions (append at
zmin past the bottom, prepend at zmin at most 0 with H below the total
depth, interior insertion staying inside the stack), and by perturb on
both variants whenever zmin and zmax are nonnegative: every perturb exit,
error or success, leaves a state with equal column lengths, positive
thicknesses and a strictly increasing depth array consistent with the
thicknesses. -/
theorem c1_invariants_preserved (mI : Stack1d IsoCol) (mT : Stack1d TICol)
    (H vsv vsh vpv vph vpf rho Qp Qs etap etas frefp frefs zmin : ℚ)
    (dm zmin2 zmax2 : ℚ) (datatype : String)
    (hInvI : StackInv mI) (hneI : mI.HArr ≠ [])
    (hInvT : StackInv mT) (hneT : mT.HArr ≠ [])
    (hH : 0 < H) (hzmin2 : 0 ≤ zmin2) (hzmax2 : 0 ≤ zmax2) :
    (mI.totalDepth ≤ zmin →
      ∃ m2, mI.addlayerIso H vsv (some vsh) (some vpv) (some vph) (some vpf)
          (some rho) Qp Qs etap etas frefp frefs zmin = .ok m2 ∧ GoodStack m2) ∧
    (zmin ≤ 0 → H < mI.totalDepth →
      ∃ m2, mI.addlayerIso H vsv (some vsh) (some vpv) (some vph) (some vpf)
          (some rho) Qp Qs etap etas frefp frefs zmin = .ok m2 ∧ GoodStack m2) ∧
    (0 < zmin → zmin + H ≤ mI.totalDepth →
      ∃ m2, mI.addlayerIso H vsv (some vsh) (some vpv) (some vph) (some vpf)
          (some rho) Qp Qs etap etas frefp frefs zmin = .ok m2 ∧ GoodStack m2) ∧
    GoodStack (outState (mI.perturbIso dm zmin2 zmax2 datatype)) ∧
    GoodStack (outState (mT.perturbTI dm zmin2 zmax2 datatype)) := by
  have hDneI : mI.DepthArr ≠ [] := hInvI.depth_ne_nil hneI
  refine ⟨?_, ?_, ?_, ?_, ?_⟩
  · intro hz
    refine ⟨_, addlayerRaw_append mI H _ zmin hDneI hz, ?_⟩
    exact (appendCore_inv mI H _ hInvI hH).1.good
  · intro hz hlt
    have hds : mI.addlayerIso H vsv (some vsh) (some vpv) (some vph) (some vpf)
        (some rho) Qp Qs etap etas frefp frefs zmin
        = prependCore mI H (fun f => match f with
            | .vp => vpv | .vs => vsv | .rho => rho
            | .qp => Qp | .qs => Qs | .etap => etap | .etas => etas
            | .frefp => frefp | .frefs => frefs) := by
      apply addlayerRaw_prepend mI H _ zmin hDneI
        (by simp only [not_le]; linarith) hz
    obtain ⟨m2, heq, hInv2, -, -, -⟩ := prependCore_ok mI H (fun f => match f with
        | .vp => vpv | .vs => vsv | .rho => rho
        | .qp => Qp | .qs => Qs | .etap => etap | .etas => etas
        | .frefp => frefp | .frefs => frefs) hInvI hH hlt
    exact ⟨m2, hds.trans heq, hInv2.good⟩
  · intro h0 hle
    have hds : mI.addlayerIso H vsv (some vsh) (some vpv) (some vph) (some vpf)
        (some rho) Qp Qs etap etas frefp frefs zmin
        = interiorCore mI H (fun f => match f with
            | .vp => vpv | .vs => vsv | .rho => rho
            | .qp => Qp | .qs => Qs | .etap => etap | .etas => etas
            | .frefp => frefp | .frefs => frefs) zmin := by
      apply addlayerRaw_interior mI H _ zmin hDneI
        (by simp only [not_le]; linarith) (by simp only [not_le]; linarith)
    rw [hds, interiorCore_ok mI H zmin _ hInvI hInvI.1 h0 hH hle]
    exact ⟨_, rfl, ((interiorResult_inv mI H zmin _ hInvI h0 hH hle).1).good⟩
  · exact ((perturbCore_master (fun s h v z => addlayerRaw s h v z) rejectIso
      parseIso (fun f g => g = f) (fun f g => g = f) mI dm zmin2 zmax2 datatype
      (fun s Hn v z _ _ => rfl) hInvI hneI hzmin2 hzmax2).1).good
  · exact ((perturbCore_master (fun s h v z => addlayerRawTI s h v z) rejectTI
      parseTI (fun f g => g = f) scaledTopTI mT dm zmin2 zmax2 datatype
      (fun s Hn v z hD hlt => addlayerRawTI_nonappend s Hn v z hD hlt)
      hInvT hneT hzmin2 hzmax2).1).good

/-- Witness for C1: all five parts exercised at concrete inputs (appends,
prepend and interior insertion into isoM0, perturb of rho on isoM0 and on
tiM1 over depths 1 to 9). -/
theorem c1_invariants_preserved_witness :
    (StackInv isoM0 ∧ isoM0.HArr ≠ [] ∧ StackInv tiM1 ∧ tiM1.HArr ≠ [] ∧
      (0:ℚ) < 2 ∧ (0:ℚ) ≤ 1 ∧ (0:ℚ) ≤ 9 ∧
      isoM0.totalDepth ≤ 20 ∧ (-1:ℚ) ≤ 0 ∧ (2:ℚ) < isoM0.totalDepth ∧
      (0:ℚ) < 5 ∧ (5:ℚ) + 2 ≤ isoM0.totalDepth) ∧
    (∃ m2, isoM0.addlayerIso 2 4 (some 4) (some 7) (some 7) (some 1) (some 3)
        200 100 0 0 1 1 20 = .ok m2 ∧ GoodStack m2) ∧
    (∃ m2, isoM0.addlayerIso 2 4 (some 4) (some 7) (some 7) (some 1) (some 3)
        200 100 0 0 1 1 (-1) = .ok m2 ∧ GoodStack m2) ∧
    (∃ m2, isoM0.addlayerIso 2 4 (some 4) (some 7) (some 7) (some 1) (some 3)
        200 100 0 0 1 1 5 = .ok m2 ∧ GoodStack m2) ∧
    GoodStack (outState (isoM0.perturbIso (1/10) 1 9 "rho")) ∧
    GoodStack (outState (tiM1.perturbTI (1/10) 1 9 "rho")) :=
  ⟨⟨isoM0_inv, by with_unfolding_all decide, tiM1_inv, by with_unfolding_all decide,
      by norm_num, by norm_num, by norm_num,
      of_decide_eq_true (by with_unfolding_all rfl), by norm_num,
      of_decide_eq_true (by with_unfolding_all rfl), by norm_num,
      of_decide_eq_true (by with_unfolding_all rfl)⟩,
    (c1_invariants_preserved isoM0 tiM1 2 4 4 7 7 1 3 200 100 0 0 1 1 20
        (1/10) 1 9 "rho" isoM0_inv (by with_unfolding_all decide) tiM1_inv
        (by with_unfolding_all decide) (by norm_num) (by norm_num)
        (by norm_num)).1 (of_decide_eq_true (by with_unfolding_all rfl)),
    (c1_invariants_preserved isoM0 tiM1 2 4 4 7 7 1 3 200 100 0 0 1 1 (-1)
        (1/10) 1 9 "rho" isoM0_inv (by with_unfolding_all decide) tiM1_inv
        (by with_unfolding_all decide) (by norm_num) (by norm_num)
        (by norm_num)).2.1 (by norm_num)
      (of_decide_eq_true (by with_unfolding_all rfl)),
    (c1_invariants_preserved isoM0 tiM1 2 4 4 7 7 1 3 200 100 0 0 1 1 5
        (1/10) 1 9 "rho" isoM0_inv (by with_unfolding_all decide) tiM1_inv
        (by with_unfolding_all decide) (by norm_num) (by norm_num)
        (by norm_num)).2.2.1 (by norm_num)
      (of_decide_eq_true (by with_unfolding_all rfl)),
    (c1_invariants_preserved isoM0 tiM1 2 4 4 7 7 1 3 200 100 0 0 1 1 5
        (1/10) 1 9 "rho" isoM0_inv (by with_unfolding_all decide) tiM1_inv
        (by with_unfolding_all decide) (by norm_num) (by norm_num)
        (by norm_num)).2.2.2.1,
    (c1_invariants_preserved isoM0 tiM1 2 4 4 7 7 1 3 200 100 0 0 1 1 5
        (1/10) 1 9 "rho" isoM0_inv (by with_unfolding_all decide) tiM1_inv
        (by with_unfolding_all decide) (by norm_num) (by norm_num)
        (by norm_num)).2.2.2.2⟩

/-- C6 corrected: with a NONNEGATIVE zmin (the counterexample shows a
negative zmin double-perturbs through numpy index -1) and zmax, fraction
dm between -1 and 1, and a datatype whose branch runs, every successful
perturb call preserves each layer fully inside the range at some index
(boundary insertions can shift positions): the surviving layer keeps its
thickness and bottom depth, its named parameter column is multiplied by
1 + dm, and every other parameter column of that layer is unchanged.
This holds on both variants. -/
theorem c6_perturb_scales_inside (mI : Stack1d IsoCol) (mT : Stack1d TICol)
    (dm zmin zmax : ℚ) (dtI dtT : String) (fI : IsoCol) (fT : TICol)
    (hInvI : StackInv mI) (hneI : mI.HArr ≠ [])
    (hInvT : StackInv mT) (hneT : mT.HArr ≠ [])
    (hzmin : 0 ≤ zmin) (hzmax : 0 ≤ zmax)
    (hdm1 : -1 ≤ dm) (hdm2 : dm ≤ 1)
    (hdI : parseIso dtI = some fI) (hdT : parseTI dtT = some fT) :
    (∀ m2, mI.perturbIso dm zmin zmax dtI = .ok m2 →
      ∀ i : ℕ, fullyInside mI zmin zmax i →
        ∃ j, j < m2.HArr.length ∧
          m2.HArr.getD j 0 = mI.HArr.getD i 0 ∧
          m2.DepthArr.getD j 0 = mI.DepthArr.getD i 0 ∧
          (m2.col fI).getD j 0 = (mI.col fI).getD i 0 * (1 + dm) ∧
          ∀ g : IsoCol, g ≠ fI → (m2.col g).getD j 0 = (mI.col g).getD i 0) ∧
    (∀ m2, mT.perturbTI dm zmin zmax dtT = .ok m2 →
      ∀ i : ℕ, fullyInside mT zmin zmax i →
        ∃ j, j < m2.HArr.length ∧
          m2.HArr.getD j 0 = mT.HArr.getD i 0 ∧
          m2.DepthArr.getD j 0 = mT.DepthArr.getD i 0 ∧
          (m2.col fT).getD j 0 = (mT.col fT).getD i 0 * (1 + dm) ∧
          ∀ g : TICol, g ≠ fT → (m2.col g).getD j 0 = (mT.col g).getD i 0) :=
  ⟨fun m2 hm2 => (perturbCore_master (fun s h v z => addlayerRaw s h v z)
      rejectIso parseIso (fun f g => g = f) (fun f g => g = f) mI dm zmin zmax dtI
      (fun s Hn v z _ _ => rfl) hInvI hneI hzmin hzmax).2.2 fI m2 hdI hm2,
    fun m2 hm2 => (perturbCore_master (fun s h v z => addlayerRawTI s h v z)
      rejectTI parseTI (fun f g => g = f) scaledTopTI mT dm zmin zmax dtT
      (fun s Hn v z hD hlt => addlayerRawTI_nonappend s Hn v z hD hlt)
      hInvT hneT hzmin hzmax).2.2 fT m2 hdT hm2⟩

/-- Witness for C6: perturb vs on the three-layer isotropic model and vsv
on the two-layer transverse-isotropic model, over depths 2 to 6 and 0 to 4
respectively. -/
theorem c6_perturb_scales_inside_witness :
    (StackInv isoM3 ∧ isoM3.HArr ≠ [] ∧ StackInv tiM3 ∧ tiM3.HArr ≠ [] ∧
      (0:ℚ) ≤ 2 ∧ (0:ℚ) ≤ 6 ∧ (-1:ℚ) ≤ 1/10 ∧ (1/10:ℚ) ≤ 1 ∧
      parseIso "vs" = some IsoCol.vs ∧ parseTI "vsv" = some TICol.vsv) ∧
    (∀ m2, isoM3.perturbIso (1/10) 2 6 "vs" = .ok m2 →
      ∀ i : ℕ, fullyInside isoM3 2 6 i →
        ∃ j, j < m2.HArr.length ∧
          m2.HArr.getD j 0 = isoM3.HArr.getD i 0 ∧
          m2.DepthArr.getD j 0 = isoM3.DepthArr.getD i 0 ∧
          (m2.col IsoCol.vs).getD j 0 = (isoM3.col IsoCol.vs).getD i 0 * (1 + 1/10) ∧
          ∀ g : IsoCol, g ≠ IsoCol.vs →
            (m2.col g).getD j 0 = (isoM3.col g).getD i 0) ∧
    (∀ m2, tiM3.perturbTI (1/10) 2 6 "vsv" = .ok m2 →
      ∀ i : ℕ, fullyInside tiM3 2 6 i →
        ∃ j, j < m2.HArr.length ∧
          m2.HArr.getD j 0 = tiM3.HArr.getD i 0 ∧
          m2.DepthArr.getD j 0 = tiM3.DepthArr.getD i 0 ∧
          (m2.col TICol.vsv).getD j 0 = (tiM3.col TICol.vsv).getD i 0 * (1 + 1/10) ∧
          ∀ g : TICol, g ≠ TICol.vsv →
            (m2.col g).getD j 0 = (tiM3.col g).getD i 0) :=
  ⟨⟨isoM3_inv, by with_unfolding_all decide, tiM3_inv, by with_unfolding_all decide,
      by norm_num, by norm_num, by norm_num, by norm_num, rfl, rfl⟩,
    (c6_perturb_scales_inside isoM3 tiM3 (1/10) 2 6 "vs" "vsv" IsoCol.vs TICol.vsv
        isoM3_inv (by with_unfolding_all decide) tiM3_inv
        (by with_unfolding_all decide) (by norm_num) (by norm_num)
        (by norm_num) (by norm_num) rfl rfl).1,
    (c6_perturb_scales_inside isoM3 tiM3 (1/10) 2 6 "vs" "vsv" IsoCol.vs TICol.vsv
        isoM3_inv (by with_unfolding_all decide) tiM3_inv
        (by with_unfolding_all decide) (by norm_num) (by norm_num)
        (by norm_num) (by norm_num) rfl rfl).2⟩
